import Mathlib

/-!
Verification of the text-patching core of the kicad-jlcpcb-importer plugin.

The repository edits KiCad `.kicad_sym`, `.kicad_mod`, `sym-lib-table` and
`fp-lib-table` files by hand-rolled balanced-parenthesis scanning and regular
expressions (`symbol_editor.py`, `lib_tables.py`, `footprint_editor.py`).
Strings are modelled as `List Char`; each Python routine is embedded as an
executable Lean function mirroring the source line by line, and the claims
about the patcher are proved against those embeddings.
-/

namespace KicadImport

/-- Whitespace characters recognised by Python's `str.strip` / regex
whitespace class (ASCII range). -/
def isWS (c : Char) : Bool :=
  c = ' ' || c = '\t' || c = '\n' || c = '\r' || c = '\x0b' || c = '\x0c'

/-- Test `beginsWith pat s`: true when `pat` is an initial segment of `s`
(Python `str.startswith`). -/
def beginsWith : List Char → List Char → Bool
  | [], _ => true
  | _ :: _, [] => false
  | p :: ps, c :: cs => p = c && beginsWith ps cs

/-- Substring containment (Python `needle in hay`). -/
def containsSub (pat : List Char) : List Char → Bool
  | [] => beginsWith pat []
  | c :: cs => beginsWith pat (c :: cs) || containsSub pat cs

/-- Index of the first occurrence of `pat` in `s` (Python `str.find`,
with `none` for `-1`). -/
def findSubFrom (pat s : List Char) : Option Nat :=
  if beginsWith pat s then some 0
  else
    match s with
    | [] => none
    | _ :: cs => (findSubFrom pat cs).map (· + 1)

/-- Replace the first occurrence of `pat` in `s` by `repl`
(Python `str.replace(pat, repl, 1)`). -/
def replaceFirst (pat repl s : List Char) : List Char :=
  if beginsWith pat s then repl ++ s.drop pat.length
  else
    match s with
    | [] => []
    | c :: cs => c :: replaceFirst pat repl cs

/-- Index of the last occurrence of character `c` (Python `str.rfind` on a
single-character needle, `none` for `-1`). -/
def rfindChar (c : Char) : List Char → Option Nat
  | [] => none
  | a :: as =>
    match rfindChar c as with
    | some k => some (k + 1)
    | none => if a = c then some 0 else none

/-- Python `str.rstrip()`. -/
def stripEndWS (s : List Char) : List Char :=
  (s.reverse.dropWhile isWS).reverse

/-- Python `str.strip()`. -/
def stripWS (s : List Char) : List Char :=
  stripEndWS (s.dropWhile isWS)

/-- Python `str.lower()` (ASCII view). -/
def lowerStr (s : List Char) : List Char :=
  s.map Char.toLower

/-- Replacement of `"` by `'` applied by the editor before writing a value
(Python `value.replace(chr(34), chr(39))`). -/
def sanitizeVal (v : List Char) : List Char :=
  v.map (fun c => if c = '\"' then '\'' else c)

/-- Decimal rendering of a natural number, fueled for structural
recursion; `n < fuel` suffices. -/
def natToCharsGo : Nat → Nat → List Char
  | 0, _ => []
  | fuel + 1, n =>
    if n < 10 then [Char.ofNat (48 + n)]
    else natToCharsGo fuel (n / 10) ++ [Char.ofNat (48 + n % 10)]

/-- Decimal rendering of a natural number (Python `str(i)` inside an
f-string). -/
def natToChars (n : Nat) : List Char :=
  natToCharsGo (n + 1) n

/-! ### Basic lemmas about the string primitives -/

theorem beginsWith_eq_append {p s : List Char} (h : beginsWith p s = true) :
    s = p ++ s.drop p.length := by
  induction p generalizing s with
  | nil => simp
  | cons a ps ih =>
    cases s with
    | nil => simp [beginsWith] at h
    | cons c cs =>
      simp only [beginsWith, Bool.and_eq_true, decide_eq_true_eq] at h
      obtain ⟨rfl, h2⟩ := h
      simpa using ih h2

theorem beginsWith_length {p s : List Char} (h : beginsWith p s = true) :
    p.length ≤ s.length := by
  have := beginsWith_eq_append h
  have : s.length = p.length + (s.drop p.length).length := by
    conv_lhs => rw [this]
    simp
  omega

theorem beginsWith_append (p t : List Char) : beginsWith p (p ++ t) = true := by
  induction p with
  | nil => simp [beginsWith]
  | cons a ps ih => simpa [beginsWith] using ih

theorem containsSub_iff {p s : List Char} :
    containsSub p s = true ↔ ∃ a b, s = a ++ p ++ b := by
  constructor
  · intro h
    induction s with
    | nil =>
      simp only [containsSub] at h
      refine ⟨[], [], ?_⟩
      cases p with
      | nil => simp
      | cons x xs => simp [beginsWith] at h
    | cons c cs ih =>
      simp only [containsSub, Bool.or_eq_true] at h
      rcases h with h | h
      · exact ⟨[], (c :: cs).drop p.length, by simpa using beginsWith_eq_append h⟩
      · obtain ⟨a, b, hab⟩ := ih h
        exact ⟨c :: a, b, by simp [hab]⟩
  · rintro ⟨a, b, rfl⟩
    induction a with
    | nil =>
      cases hp : p ++ b with
      | nil => simp_all [containsSub, beginsWith]
      | cons x xs =>
        simp only [List.nil_append, hp, containsSub, Bool.or_eq_true]
        left
        rw [← hp]
        exact beginsWith_append p b
    | cons c cs ih =>
      simp only [List.cons_append, containsSub, Bool.or_eq_true]
      right
      exact ih

theorem containsSub_append_mid (a p b : List Char) :
    containsSub p (a ++ p ++ b) = true :=
  containsSub_iff.mpr ⟨a, b, rfl⟩

theorem containsSub_length {p s : List Char} (h : containsSub p s = true) :
    p.length ≤ s.length := by
  obtain ⟨a, b, rfl⟩ := containsSub_iff.mp h
  simp
  omega

theorem containsSub_of_beginsWith {p s : List Char} (h : beginsWith p s = true) :
    containsSub p s = true := by
  cases s with
  | nil => simpa [containsSub] using h
  | cons c cs => simp [containsSub, h]

theorem rfindChar_none {c : Char} {s : List Char}
    (h : rfindChar c s = none) : c ∉ s := by
  induction s with
  | nil => simp
  | cons a as ih =>
    simp only [rfindChar] at h
    cases hr : rfindChar c as with
    | some k => simp [hr] at h
    | none =>
      rw [hr] at h
      intro hmem
      rcases List.mem_cons.mp hmem with rfl | hmem2
      · simp at h
      · exact ih hr hmem2

theorem rfindChar_spec {c : Char} {s : List Char} {i : Nat}
    (h : rfindChar c s = some i) :
    i < s.length ∧ s = s.take i ++ c :: s.drop (i + 1) ∧ c ∉ s.drop (i + 1) := by
  induction s generalizing i with
  | nil => simp [rfindChar] at h
  | cons a as ih =>
    simp only [rfindChar] at h
    cases hr : rfindChar c as with
    | some k =>
      rw [hr] at h
      obtain rfl : k + 1 = i := by simpa using h
      obtain ⟨h1, h2, h3⟩ := ih hr
      refine ⟨by simp; omega, ?_, by simpa using h3⟩
      simp only [List.take_succ_cons, List.drop_succ_cons, List.cons_append]
      conv_lhs => rw [h2]
    | none =>
      rw [hr] at h
      by_cases hac : a = c
      · simp only [hac, if_pos rfl] at h
        obtain rfl : 0 = i := by simpa using h
        exact ⟨by simp, by simp [hac], by simpa using rfindChar_none hr⟩
      · simp [hac] at h

theorem sanitizeVal_no_quote (v : List Char) : '\"' ∉ sanitizeVal v := by
  intro h
  simp only [sanitizeVal, List.mem_map] at h
  obtain ⟨c, _, hc⟩ := h
  by_cases h2 : c = '\"' <;> simp [h2] at hc

theorem findSubFrom_lt {pat s : List Char} {k : Nat} (hp : pat ≠ [])
    (h : findSubFrom pat s = some k) : k < s.length := by
  induction s generalizing k with
  | nil =>
    rw [findSubFrom] at h
    cases pat with
    | nil => exact absurd rfl hp
    | cons x xs => simp [beginsWith] at h
  | cons c cs ih =>
    rw [findSubFrom] at h
    by_cases hb : beginsWith pat (c :: cs) = true
    · rw [if_pos hb] at h
      obtain rfl : 0 = k := by simpa using h
      simp
    · rw [if_neg hb] at h
      simp only [Option.map_eq_some'] at h
      obtain ⟨k', hk', rfl⟩ := h
      have := ih hk'
      simp
      omega

theorem findSubFrom_beginsWith {pat s : List Char} {k : Nat}
    (h : findSubFrom pat s = some k) : beginsWith pat (s.drop k) = true := by
  induction s generalizing k with
  | nil =>
    rw [findSubFrom] at h
    by_cases hb : beginsWith pat [] = true
    · rw [if_pos hb] at h
      obtain rfl : 0 = k := by simpa using h
      simpa using hb
    · simp [if_neg hb] at h
  | cons c cs ih =>
    rw [findSubFrom] at h
    by_cases hb : beginsWith pat (c :: cs) = true
    · rw [if_pos hb] at h
      obtain rfl : 0 = k := by simpa using h
      simpa using hb
    · rw [if_neg hb] at h
      simp only [Option.map_eq_some'] at h
      obtain ⟨k', hk', rfl⟩ := h
      simpa using ih hk'

/-! ### Balanced-parenthesis block scanner (`SymbolEditor._find_blocks`,
`SymbolEditor._find_pin_blocks`) -/

/-- Search key for symbol blocks. -/
def symPat : List Char := "(symbol ".data

/-- Search key for pin blocks. -/
def pinPat : List Char := "(pin ".data

/-- The inner `while i < len(src)` depth-counting loop: starting with
counter `d`, scan the characters, incrementing on an open paren and
decrementing on a close paren, and return the number of characters consumed
up to and including the close paren where the counter reaches zero
(`end = i + 1`); `none` when the scan runs off the end (`end == -1`). -/
def scanDepth : List Char → Int → Option Nat
  | [], _ => none
  | c :: cs, d =>
    if c = '(' then (scanDepth cs (d + 1)).map (· + 1)
    else if c = ')' then
      if d - 1 = 0 then some 1 else (scanDepth cs (d - 1)).map (· + 1)
    else (scanDepth cs d).map (· + 1)

theorem scanDepth_bounds {s : List Char} {d : Int} {L : Nat}
    (h : scanDepth s d = some L) : 1 ≤ L ∧ L ≤ s.length := by
  induction s generalizing d L with
  | nil => simp [scanDepth] at h
  | cons c cs ih =>
    simp only [scanDepth] at h
    by_cases h1 : c = '('
    · rw [if_pos h1] at h
      simp only [Option.map_eq_some'] at h
      obtain ⟨L', hL', rfl⟩ := h
      have := ih hL'
      constructor <;> simp <;> omega
    · rw [if_neg h1] at h
      by_cases h2 : c = ')'
      · rw [if_pos h2] at h
        by_cases h3 : d - 1 = 0
        · rw [if_pos h3] at h
          obtain rfl : 1 = L := by simpa using h
          simp
        · rw [if_neg h3] at h
          simp only [Option.map_eq_some'] at h
          obtain ⟨L', hL', rfl⟩ := h
          have := ih hL'
          constructor <;> simp <;> omega
      · rw [if_neg h2] at h
        simp only [Option.map_eq_some'] at h
        obtain ⟨L', hL', rfl⟩ := h
        have := ih hL'
        constructor <;> simp <;> omega

/-- Embedding of `SymbolEditor._find_blocks`: repeatedly `find` the key and scan for the
balancing close paren; on an unterminated block skip 7 characters
(`idx = start + 7`).  `base` is the absolute position of `suffix` in the
original string; spans are absolute.  The structural `fuel` argument only
bounds the iteration count; `suffix.length < fuel` always suffices because
the scan position strictly increases. -/
def findBlocksAux : Nat → List Char → Nat → List (Nat × Nat)
  | 0, _, _ => []
  | fuel + 1, suffix, base =>
    match findSubFrom symPat suffix with
    | none => []
    | some off =>
      match scanDepth (suffix.drop off) 0 with
      | some L =>
        (base + off, base + off + L) ::
          findBlocksAux fuel ((suffix.drop off).drop L) (base + off + L)
      | none => findBlocksAux fuel ((suffix.drop off).drop 7) (base + off + 7)

/-- Spans of top-level `(symbol ...)` blocks in `src`. -/
def findBlocks (src : List Char) : List (Nat × Nat) :=
  findBlocksAux (src.length + 1) src 0

/-- Embedding of `SymbolEditor._find_pin_blocks`: same scan with the `(pin ` key; on an
unterminated block the fallback is `idx = start + 1`. -/
def findPinBlocksAux : Nat → List Char → Nat → List (Nat × Nat)
  | 0, _, _ => []
  | fuel + 1, suffix, base =>
    match findSubFrom pinPat suffix with
    | none => []
    | some off =>
      match scanDepth (suffix.drop off) 0 with
      | some L =>
        (base + off, base + off + L) ::
          findPinBlocksAux fuel ((suffix.drop off).drop L) (base + off + L)
      | none => findPinBlocksAux fuel ((suffix.drop off).drop 1) (base + off + 1)

/-- Spans of top-level `(pin ...)` blocks in `src`. -/
def findPinBlocks (src : List Char) : List (Nat × Nat) :=
  findPinBlocksAux (src.length + 1) src 0

/-- The `while True` loop of `_find_blocks` written with an explicit scan
index `idx` and a fuel counter; `none` means the fuel ran out before the
loop ended.  Used to state that the loop terminates on every input. -/
def findBlocksLoop (src : List Char) :
    Nat → Nat → List (Nat × Nat) → Option (List (Nat × Nat))
  | 0, _, _ => none
  | fuel + 1, idx, acc =>
    match findSubFrom symPat (src.drop idx) with
    | none => some acc
    | some off =>
      match scanDepth (src.drop (idx + off)) 0 with
      | some L => findBlocksLoop src fuel (idx + off + L) (acc.concat (idx + off, idx + off + L))
      | none => findBlocksLoop src fuel (idx + off + 7) acc

/-- The `while True` loop of `_find_pin_blocks` with explicit index and
fuel. -/
def findPinBlocksLoop (src : List Char) :
    Nat → Nat → List (Nat × Nat) → Option (List (Nat × Nat))
  | 0, _, _ => none
  | fuel + 1, idx, acc =>
    match findSubFrom pinPat (src.drop idx) with
    | none => some acc
    | some off =>
      match scanDepth (src.drop (idx + off)) 0 with
      | some L => findPinBlocksLoop src fuel (idx + off + L) (acc.concat (idx + off, idx + off + L))
      | none => findPinBlocksLoop src fuel (idx + off + 1) acc

theorem findBlocksLoop_isSome (src : List Char) :
    ∀ fuel idx acc, src.length + 1 - idx < fuel →
      (findBlocksLoop src fuel idx acc).isSome = true := by
  intro fuel
  induction fuel with
  | zero =>
    intro idx acc h
    exact absurd h (by omega)
  | succ fuel ih =>
    intro idx acc h
    cases hf : findSubFrom symPat (src.drop idx) with
    | none => simp [findBlocksLoop, hf]
    | some off =>
      have hoff : off < (src.drop idx).length := findSubFrom_lt (by decide) hf
      simp only [List.length_drop] at hoff
      cases hs : scanDepth (src.drop (idx + off)) 0 with
      | some L =>
        have hL := (scanDepth_bounds hs).1
        simp only [findBlocksLoop, hf, hs]
        exact ih (idx + off + L) _ (by omega)
      | none =>
        simp only [findBlocksLoop, hf, hs]
        exact ih (idx + off + 7) acc (by omega)

theorem findPinBlocksLoop_isSome (src : List Char) :
    ∀ fuel idx acc, src.length + 1 - idx < fuel →
      (findPinBlocksLoop src fuel idx acc).isSome = true := by
  intro fuel
  induction fuel with
  | zero =>
    intro idx acc h
    exact absurd h (by omega)
  | succ fuel ih =>
    intro idx acc h
    cases hf : findSubFrom pinPat (src.drop idx) with
    | none => simp [findPinBlocksLoop, hf]
    | some off =>
      have hoff : off < (src.drop idx).length := findSubFrom_lt (by decide) hf
      simp only [List.length_drop] at hoff
      cases hs : scanDepth (src.drop (idx + off)) 0 with
      | some L =>
        have hL := (scanDepth_bounds hs).1
        simp only [findPinBlocksLoop, hf, hs]
        exact ih (idx + off + L) _ (by omega)
      | none =>
        simp only [findPinBlocksLoop, hf, hs]
        exact ih (idx + off + 1) acc (by omega)

theorem findBlocksAux_fuel_irrel :
    ∀ fuel fuel' (s : List Char) (b : Nat), s.length < fuel → s.length < fuel' →
      findBlocksAux fuel s b = findBlocksAux fuel' s b := by
  intro fuel
  induction fuel with
  | zero => intro fuel' s b h _; omega
  | succ fuel ih =>
    intro fuel' s b h h'
    cases fuel' with
    | zero => omega
    | succ fuel' =>
      cases hf : findSubFrom symPat s with
      | none => simp [findBlocksAux, hf]
      | some off =>
        have hofflt : off < s.length := findSubFrom_lt (by decide) hf
        cases hs : scanDepth (s.drop off) 0 with
        | some L =>
          have hL := scanDepth_bounds hs
          simp only [List.length_drop] at hL
          simp only [findBlocksAux, hf, hs]
          rw [ih fuel' _ _ (by simp only [List.length_drop]; omega)
            (by simp only [List.length_drop]; omega)]
        | none =>
          simp only [findBlocksAux, hf, hs]
          exact ih fuel' _ _ (by simp only [List.length_drop]; omega)
            (by simp only [List.length_drop]; omega)

theorem findPinBlocksAux_fuel_irrel :
    ∀ fuel fuel' (s : List Char) (b : Nat), s.length < fuel → s.length < fuel' →
      findPinBlocksAux fuel s b = findPinBlocksAux fuel' s b := by
  intro fuel
  induction fuel with
  | zero => intro fuel' s b h _; omega
  | succ fuel ih =>
    intro fuel' s b h h'
    cases fuel' with
    | zero => omega
    | succ fuel' =>
      cases hf : findSubFrom pinPat s with
      | none => simp [findPinBlocksAux, hf]
      | some off =>
        have hofflt : off < s.length := findSubFrom_lt (by decide) hf
        cases hs : scanDepth (s.drop off) 0 with
        | some L =>
          have hL := scanDepth_bounds hs
          simp only [List.length_drop] at hL
          simp only [findPinBlocksAux, hf, hs]
          rw [ih fuel' _ _ (by simp only [List.length_drop]; omega)
            (by simp only [List.length_drop]; omega)]
        | none =>
          simp only [findPinBlocksAux, hf, hs]
          exact ih fuel' _ _ (by simp only [List.length_drop]; omega)
            (by simp only [List.length_drop]; omega)

theorem findBlocksLoop_eq_aux (src : List Char) :
    ∀ fuel1 idx acc fuel2, src.length + 1 - idx < fuel1 →
      (src.drop idx).length < fuel2 →
      findBlocksLoop src fuel1 idx acc =
        some (acc ++ findBlocksAux fuel2 (src.drop idx) idx) := by
  intro fuel1
  induction fuel1 with
  | zero => intro idx acc fuel2 h _; omega
  | succ fuel1 ih =>
    intro idx acc fuel2 h1 h2
    cases fuel2 with
    | zero => omega
    | succ fuel2 =>
      cases hf : findSubFrom symPat (src.drop idx) with
      | none => simp [findBlocksLoop, findBlocksAux, hf]
      | some off =>
        have hofflt : off < (src.drop idx).length := findSubFrom_lt (by decide) hf
        simp only [List.length_drop] at hofflt h2
        have heq : (src.drop idx).drop off = src.drop (idx + off) := by
          rw [List.drop_drop]
        cases hs : scanDepth (src.drop (idx + off)) 0 with
        | some L =>
          have hL := scanDepth_bounds hs
          simp only [List.length_drop] at hL
          have heq2 : (src.drop (idx + off)).drop L = src.drop (idx + off + L) := by
            rw [List.drop_drop]
          simp only [findBlocksLoop, hf, hs, findBlocksAux, heq, heq2]
          rw [ih (idx + off + L) _ fuel2 (by omega)
            (by simp only [List.length_drop]; omega)]
          simp
        | none =>
          have heq2 : (src.drop (idx + off)).drop 7 = src.drop (idx + off + 7) := by
            rw [List.drop_drop]
          simp only [findBlocksLoop, hf, hs, findBlocksAux, heq, heq2]
          exact ih (idx + off + 7) acc fuel2 (by omega)
            (by simp only [List.length_drop]; omega)

/-- The explicitly-fueled while-loop embedding computes exactly
`findBlocks`: the two renderings of `_find_blocks` agree. -/
theorem findBlocksLoop_eq_findBlocks (src : List Char) :
    findBlocksLoop src (src.length + 2) 0 [] = some (findBlocks src) := by
  have h := findBlocksLoop_eq_aux src (src.length + 2) 0 [] (src.length + 1)
    (by omega) (by simp)
  simpa [findBlocks] using h

theorem findPinBlocksLoop_eq_aux (src : List Char) :
    ∀ fuel1 idx acc fuel2, src.length + 1 - idx < fuel1 →
      (src.drop idx).length < fuel2 →
      findPinBlocksLoop src fuel1 idx acc =
        some (acc ++ findPinBlocksAux fuel2 (src.drop idx) idx) := by
  intro fuel1
  induction fuel1 with
  | zero => intro idx acc fuel2 h _; omega
  | succ fuel1 ih =>
    intro idx acc fuel2 h1 h2
    cases fuel2 with
    | zero => omega
    | succ fuel2 =>
      cases hf : findSubFrom pinPat (src.drop idx) with
      | none => simp [findPinBlocksLoop, findPinBlocksAux, hf]
      | some off =>
        have hofflt : off < (src.drop idx).length := findSubFrom_lt (by decide) hf
        simp only [List.length_drop] at hofflt h2
        have heq : (src.drop idx).drop off = src.drop (idx + off) := by
          rw [List.drop_drop]
        cases hs : scanDepth (src.drop (idx + off)) 0 with
        | some L =>
          have hL := scanDepth_bounds hs
          simp only [List.length_drop] at hL
          have heq2 : (src.drop (idx + off)).drop L = src.drop (idx + off + L) := by
            rw [List.drop_drop]
          simp only [findPinBlocksLoop, hf, hs, findPinBlocksAux, heq, heq2]
          rw [ih (idx + off + L) _ fuel2 (by omega)
            (by simp only [List.length_drop]; omega)]
          simp
        | none =>
          have heq2 : (src.drop (idx + off)).drop 1 = src.drop (idx + off + 1) := by
            rw [List.drop_drop]
          simp only [findPinBlocksLoop, hf, hs, findPinBlocksAux, heq, heq2]
          exact ih (idx + off + 1) acc fuel2 (by omega)
            (by simp only [List.length_drop]; omega)

/-- The explicitly-fueled while-loop embedding computes exactly
`findPinBlocks`. -/
theorem findPinBlocksLoop_eq_findPinBlocks (src : List Char) :
    findPinBlocksLoop src (src.length + 2) 0 [] = some (findPinBlocks src) := by
  have h := findPinBlocksLoop_eq_aux src (src.length + 2) 0 [] (src.length + 1)
    (by omega) (by simp)
  simpa [findPinBlocks] using h

/-- Weight of a character for paren-depth counting. -/
def pWeight (c : Char) : Int :=
  if c = '(' then 1 else if c = ')' then -1 else 0

/-- Net paren depth of a string. -/
def parenSum (s : List Char) : Int :=
  (s.map pWeight).sum

theorem parenSum_nil : parenSum [] = 0 := rfl

theorem parenSum_cons (c : Char) (s : List Char) :
    parenSum (c :: s) = pWeight c + parenSum s := by
  simp [parenSum]

theorem pWeight_open : pWeight '(' = 1 := rfl

theorem pWeight_close : pWeight ')' = -1 := rfl

theorem pWeight_other {c : Char} (h1 : ¬ c = '(') (h2 : ¬ c = ')') :
    pWeight c = 0 := by
  simp [pWeight, h1, h2]

theorem scanDepth_spec {s : List Char} {d : Int} {L : Nat}
    (h : scanDepth s d = some L) (hd : 1 ≤ d) :
    d + parenSum (s.take L) = 0 ∧
    (∀ k, k < L → 0 < d + parenSum (s.take k)) ∧
    ∃ u, s.take L = u ++ [')'] := by
  induction s generalizing d L with
  | nil => simp [scanDepth] at h
  | cons c cs ih =>
    simp only [scanDepth] at h
    by_cases h1 : c = '('
    · rw [if_pos h1] at h
      simp only [Option.map_eq_some'] at h
      obtain ⟨L', hL', rfl⟩ := h
      obtain ⟨ha, hb, u, hu⟩ := ih hL' (by omega)
      refine ⟨?_, ?_, ⟨c :: u, ?_⟩⟩
      · simp only [List.take_succ_cons, parenSum_cons, h1, pWeight_open]
        omega
      · intro k hk
        cases k with
        | zero =>
          simp only [List.take_zero, parenSum_nil]
          omega
        | succ k' =>
          simp only [List.take_succ_cons, parenSum_cons, h1, pWeight_open]
          have := hb k' (by omega)
          omega
      · simp only [List.take_succ_cons, hu, List.cons_append]
    · rw [if_neg h1] at h
      by_cases h2 : c = ')'
      · rw [if_pos h2] at h
        by_cases h3 : d - 1 = 0
        · rw [if_pos h3] at h
          obtain rfl : 1 = L := by simpa using h
          refine ⟨?_, ?_, ⟨[], ?_⟩⟩
          · simp only [List.take_succ_cons, List.take_zero, parenSum_cons,
              parenSum_nil, h2, pWeight_close]
            omega
          · intro k hk
            interval_cases k
            simp only [List.take_zero, parenSum_nil]
            omega
          · simp [h2]
        · rw [if_neg h3] at h
          simp only [Option.map_eq_some'] at h
          obtain ⟨L', hL', rfl⟩ := h
          obtain ⟨ha, hb, u, hu⟩ := ih hL' (by omega)
          refine ⟨?_, ?_, ⟨c :: u, ?_⟩⟩
          · simp only [List.take_succ_cons, parenSum_cons, h2, pWeight_close]
            omega
          · intro k hk
            cases k with
            | zero =>
              simp only [List.take_zero, parenSum_nil]
              omega
            | succ k' =>
              simp only [List.take_succ_cons, parenSum_cons, h2, pWeight_close]
              have := hb k' (by omega)
              omega
          · simp only [List.take_succ_cons, hu, List.cons_append]
      · rw [if_neg h2] at h
        simp only [Option.map_eq_some'] at h
        obtain ⟨L', hL', rfl⟩ := h
        obtain ⟨ha, hb, u, hu⟩ := ih hL' hd
        refine ⟨?_, ?_, ⟨c :: u, ?_⟩⟩
        · simp only [List.take_succ_cons, parenSum_cons, pWeight_other h1 h2]
          omega
        · intro k hk
          cases k with
          | zero =>
            simp only [List.take_zero, parenSum_nil]
            omega
          | succ k' =>
            simp only [List.take_succ_cons, parenSum_cons, pWeight_other h1 h2]
            have := hb k' (by omega)
            omega
        · simp only [List.take_succ_cons, hu, List.cons_append]

theorem scanDepth_balanced {s : List Char} {L : Nat} {t : List Char}
    (hs : s = '(' :: t) (h : scanDepth s 0 = some L) :
    parenSum (s.take L) = 0 ∧
    (∀ k, k < L → 0 < k → 0 < parenSum (s.take k)) ∧
    ∃ u, s.take L = u ++ [')'] := by
  subst hs
  rw [scanDepth] at h
  rw [if_pos rfl] at h
  simp only [Option.map_eq_some'] at h
  obtain ⟨L', hL', rfl⟩ := h
  obtain ⟨ha, hb, u, hu⟩ := scanDepth_spec hL' (by omega)
  refine ⟨?_, ?_, ⟨'(' :: u, ?_⟩⟩
  · simp only [List.take_succ_cons, parenSum_cons, pWeight_open]
    omega
  · intro k hk hk0
    cases k with
    | zero => omega
    | succ k' =>
      simp only [List.take_succ_cons, parenSum_cons, pWeight_open]
      have := hb k' (by omega)
      omega
  · simp only [List.take_succ_cons, hu, List.cons_append]

theorem beginsWith_symPat_shape {s : List Char}
    (h : beginsWith symPat s = true) : ∃ t, s = '(' :: t := by
  have := beginsWith_eq_append h
  exact ⟨"symbol ".data ++ s.drop symPat.length, by simpa [symPat] using this⟩

/-- Every span returned by `_find_blocks` starts at a `(symbol ` occurrence,
is nonempty, stays inside the scanned text, is parenthesis-balanced with the
opening paren at the start matched by the closing paren at the last position,
all relative to the absolute `base` of `suffix`. -/
theorem findBlocksAux_spec (fuel : Nat) :
    ∀ (suffix : List Char) (base : Nat), ∀ se ∈ findBlocksAux fuel suffix base,
      base ≤ se.1 ∧ se.1 < se.2 ∧ se.2 ≤ base + suffix.length ∧
      beginsWith symPat (suffix.drop (se.1 - base)) = true ∧
      parenSum ((suffix.drop (se.1 - base)).take (se.2 - se.1)) = 0 ∧
      (∀ k, k < se.2 - se.1 → 0 < k →
        0 < parenSum ((suffix.drop (se.1 - base)).take k)) ∧
      ∃ u, (suffix.drop (se.1 - base)).take (se.2 - se.1) = u ++ [')'] := by
  induction fuel with
  | zero =>
    intro suffix base se hse
    simp [findBlocksAux] at hse
  | succ fuel ih =>
    intro suffix base se hse
    rw [findBlocksAux] at hse
    split at hse
    · simp at hse
    · rename_i off hoff
      have hofflt : off < suffix.length := findSubFrom_lt (by decide) hoff
      have hbeg : beginsWith symPat (suffix.drop off) = true :=
        findSubFrom_beginsWith hoff
      split at hse
      · rename_i L hL
        have hLb := scanDepth_bounds hL
        simp only [List.length_drop] at hLb
        rcases List.mem_cons.mp hse with rfl | hse2
        · obtain ⟨t, ht⟩ := beginsWith_symPat_shape hbeg
          obtain ⟨hbal, hpos, u, hu⟩ := scanDepth_balanced ht hL
          have e1 : base + off - base = off := by omega
          have e2 : base + off + L - (base + off) = L := by omega
          refine ⟨by omega, by omega, by omega, ?_, ?_, ?_, ?_⟩
          · simpa [e1] using hbeg
          · simpa [e1, e2] using hbal
          · intro k hk hk0
            simp only [e1]
            exact hpos k (by simpa [e2] using hk) hk0
          · refine ⟨u, ?_⟩
            simpa [e1, e2] using hu
        · obtain ⟨i1, i2, i3, i4, i5, i6, i7⟩ :=
            ih ((suffix.drop off).drop L) (base + off + L) se hse2
          have hdd : ((suffix.drop off).drop L).drop (se.1 - (base + off + L)) =
              suffix.drop (se.1 - base) := by
            rw [List.drop_drop, List.drop_drop]
            congr 1
            omega
          simp only [List.length_drop] at i3
          refine ⟨by omega, i2, by omega, ?_, ?_, ?_, ?_⟩
          · rwa [hdd] at i4
          · rwa [hdd] at i5
          · rw [hdd] at i6; exact i6
          · rwa [hdd] at i7
      · rename_i hL
        obtain ⟨i1, i2, i3, i4, i5, i6, i7⟩ :=
          ih ((suffix.drop off).drop 7) (base + off + 7) se hse
        have hdd : ((suffix.drop off).drop 7).drop (se.1 - (base + off + 7)) =
            suffix.drop (se.1 - base) := by
          rw [List.drop_drop, List.drop_drop]
          congr 1
          omega
        simp only [List.length_drop] at i3
        refine ⟨by omega, i2, by omega, ?_, ?_, ?_, ?_⟩
        · rwa [hdd] at i4
        · rwa [hdd] at i5
        · rw [hdd] at i6; exact i6
        · rwa [hdd] at i7

/-- The spans returned by `_find_blocks` are pairwise ordered and
non-overlapping: every later span starts at or after the end of every
earlier one. -/
theorem findBlocksAux_pairwise (fuel : Nat) :
    ∀ (suffix : List Char) (base : Nat),
      List.Pairwise (fun a b => a.2 ≤ b.1) (findBlocksAux fuel suffix base) := by
  induction fuel with
  | zero =>
    intro suffix base
    simp [findBlocksAux]
  | succ fuel ih =>
    intro suffix base
    rw [findBlocksAux]
    split
    · simp
    · rename_i off hoff
      split
      · rename_i L hL
        refine List.Pairwise.cons ?_ (ih _ _)
        intro b hb
        have := (findBlocksAux_spec fuel _ _ b hb).1
        omega
      · exact ih _ _

/-- Claim C6: every span `(s, e)` returned by `SymbolEditor._find_blocks`
starts with `(symbol ` at `s`; the substring `src[s:e]` is
parenthesis-balanced, with the paren at `s` matched by the one at `e - 1`
(net depth zero, strictly positive depth on every proper nonempty prefix,
and the final character is `)`); the spans are strictly increasing and
pairwise non-overlapping; and no returned span starts strictly inside
another returned span, so a nested `(symbol ` occurrence is never returned
as a block. -/
theorem C6_find_blocks_spec (src : List Char) :
    (∀ se ∈ findBlocks src,
      beginsWith symPat (src.drop se.1) = true ∧
      se.1 < se.2 ∧ se.2 ≤ src.length ∧
      parenSum ((src.drop se.1).take (se.2 - se.1)) = 0 ∧
      (∀ k, k < se.2 - se.1 → 0 < k → 0 < parenSum ((src.drop se.1).take k)) ∧
      (∃ u, (src.drop se.1).take (se.2 - se.1) = u ++ [')'])) ∧
    List.Pairwise (fun a b => a.2 ≤ b.1) (findBlocks src) ∧
    (∀ se ∈ findBlocks src, ∀ se' ∈ findBlocks src,
      se.1 < se'.1 → se'.1 < se.2 → False) := by
  have hspec := findBlocksAux_spec (src.length + 1) src 0
  have hpw := findBlocksAux_pairwise (src.length + 1) src 0
  refine ⟨?_, hpw, ?_⟩
  · intro se hse
    obtain ⟨h1, h2, h3, h4, h5, h6, h7⟩ := hspec se hse
    simp only [Nat.sub_zero] at h3 h4 h5 h6 h7
    exact ⟨h4, h2, by omega, h5, h6, h7⟩
  · intro se hse se' hse' hlt hin
    have hsym : Symmetric (fun a b : Nat × Nat => a.2 ≤ b.1 ∨ b.2 ≤ a.1) := by
      intro a b hab
      tauto
    have hpw' : List.Pairwise (fun a b : Nat × Nat => a.2 ≤ b.1 ∨ b.2 ≤ a.1)
        (findBlocks src) := hpw.imp (fun h => Or.inl h)
    have hne : se ≠ se' := by
      intro h
      rw [h] at hlt
      omega
    have := hpw'.forall hsym hse hse' hne
    have hlt' := (hspec se' hse').2.1
    rcases this with h | h
    · omega
    · omega

/-- Witness for C6 at a concrete file text: the single block returned for
`(symbol "A" (x))` spans the whole string, starts with the key and is
balanced. -/
theorem C6_find_blocks_spec_witness :
    beginsWith symPat (("(symbol \"A\" (x))".data).drop 0) = true ∧
    parenSum ((("(symbol \"A\" (x))".data).drop 0).take (16 - 0)) = 0 ∧
    (∃ u, (("(symbol \"A\" (x))".data).drop 0).take (16 - 0) = u ++ [')']) := by
  have h := (C6_find_blocks_spec ("(symbol \"A\" (x))".data)).1 (0, 16) (by decide)
  exact ⟨by simpa using h.1, by simpa using h.2.2.2.1,
    by simpa using h.2.2.2.2.2⟩

/-- Claim C9: the `while True` scanning loops of `_find_blocks` and
`_find_pin_blocks` terminate on every input string: the scan index strictly
increases on each iteration, so running the explicitly-fueled loops with
`src.length + 2` units of fuel always yields a result (`some`), for
arbitrary input including unbalanced parentheses and unterminated
`(symbol `/`(pin ` occurrences. -/
theorem C9_scan_loops_terminate (src : List Char) :
    (findBlocksLoop src (src.length + 2) 0 []).isSome = true ∧
    (findPinBlocksLoop src (src.length + 2) 0 []).isSome = true :=
  ⟨findBlocksLoop_isSome src _ 0 [] (by omega),
   findPinBlocksLoop_isSome src _ 0 [] (by omega)⟩

/-! ### Property-entry matchers

The editor's regexes over a block all share the shape
`\(property\s*"Name"\s*"([^"]*)"`.  Because `\s` and `"` are disjoint and
`[^"]` and `"` are disjoint, these regexes are deterministic: greedy
matching equals maximal-run scanning, embedded below. -/

def propLit : List Char := "(property".data

/-- The quoted form `"name"` of a property name. -/
def quoted (name : List Char) : List Char :=
  '\"' :: (name ++ ['\"'])

/-- Structure of a successful property-entry match at the start of a
string: `(property` + `ws1` + `"name"` + `ws2` + `"` + `val` + `"` +
`rest`. -/
structure PropMatch where
  ws1 : List Char
  ws2 : List Char
  val : List Char
  rest : List Char
deriving DecidableEq

/-- Match of `\(property\s*"name"\s*"` at the start of `s`
(the pattern of `SymbolEditor._prop_exists`). -/
def matchPropOpen (name s : List Char) : Bool :=
  beginsWith propLit s &&
  (let r2 := (s.drop propLit.length).dropWhile isWS
   beginsWith (quoted name) r2 &&
   beginsWith ['\"'] ((r2.drop (quoted name).length).dropWhile isWS))

/-- Match of `\(property\s*"name"\s*"([^"]*)"` at the start of `s`
(the pattern of `_get_prop_value` / `_set_prop_value`). -/
def matchPropFull (name s : List Char) : Option PropMatch :=
  if beginsWith propLit s then
    let r1 := s.drop propLit.length
    let ws1 := r1.takeWhile isWS
    let r2 := r1.dropWhile isWS
    if beginsWith (quoted name) r2 then
      let r3 := r2.drop (quoted name).length
      let ws2 := r3.takeWhile isWS
      match r3.dropWhile isWS with
      | '\"' :: r5 =>
        let val := r5.takeWhile (fun c => c != '\"')
        match r5.dropWhile (fun c => c != '\"') with
        | '\"' :: rest => some ⟨ws1, ws2, val, rest⟩
        | _ => none
      | _ => none
    else none
  else none

/-- Embedding of `SymbolEditor._prop_exists`: `re.search` of the open pattern. -/
def prop_exists (name : List Char) : List Char → Bool
  | [] => false
  | c :: cs => matchPropOpen name (c :: cs) || prop_exists name cs

/-- Leftmost full property-entry match: returns the text before the match
and the match decomposition. -/
def findPropFull (name : List Char) : List Char → Option (List Char × PropMatch)
  | [] => none
  | c :: cs =>
    match matchPropFull name (c :: cs) with
    | some m => some ([], m)
    | none => (findPropFull name cs).map (fun pm => (c :: pm.1, pm.2))

/-- Embedding of `SymbolEditor._get_prop_value`. -/
def get_prop_value (block name : List Char) : Option (List Char) :=
  (findPropFull name block).map (fun pm => pm.2.val)

/-- Rendering of a full property-entry match (the regex's `group(0)` plus
the trailing rest). -/
def renderPropFrom (name : List Char) (m : PropMatch) : List Char :=
  propLit ++ m.ws1 ++ quoted name ++ m.ws2 ++ ('\"' :: m.val) ++ ('\"' :: m.rest)

/-- Embedding of `SymbolEditor._set_prop_value`: search the full pattern; if absent or
the current value equals the new one, report no change; otherwise replace
the value group by the new value with `"` replaced by `'`. -/
def set_prop_value (block name new_value : List Char) : List Char × Bool :=
  match findPropFull name block with
  | none => (block, false)
  | some (pre, m) =>
    if m.val = new_value then (block, false)
    else
      (pre ++ propLit ++ m.ws1 ++ quoted name ++ m.ws2 ++
        ('\"' :: sanitizeVal new_value) ++ ('\"' :: m.rest), true)

theorem matchPropFull_spec {name s : List Char} {m : PropMatch}
    (h : matchPropFull name s = some m) :
    s = renderPropFrom name m ∧ '\"' ∉ m.val := by
  rw [matchPropFull] at h
  by_cases h1 : beginsWith propLit s = true
  · rw [if_pos h1] at h
    simp only [] at h
    by_cases h2 : beginsWith (quoted name) ((s.drop propLit.length).dropWhile isWS) = true
    · rw [if_pos h2] at h
      set r1 := s.drop propLit.length with hr1
      set r2 := r1.dropWhile isWS with hr2
      set r3 := r2.drop (quoted name).length with hr3
      split at h
      · rename_i r5 hr4
        split at h
        · rename_i rest hr6
          simp only [Option.some.injEq] at h
          subst h
          constructor
          · -- reconstruct
            have e0 : s = propLit ++ r1 := by
              simpa [hr1] using beginsWith_eq_append h1
            have e1 : r1 = r1.takeWhile isWS ++ r2 := by
              rw [hr2]; exact (List.takeWhile_append_dropWhile _ _).symm
            have e2 : r2 = quoted name ++ r3 := by
              simpa [hr3] using beginsWith_eq_append h2
            have e3 : r3 = r3.takeWhile isWS ++ ('\"' :: r5) := by
              rw [← hr4]; exact (List.takeWhile_append_dropWhile _ _).symm
            have e4 : r5 = r5.takeWhile (fun c => c != '\"') ++ ('\"' :: rest) := by
              rw [← hr6]; exact (List.takeWhile_append_dropWhile _ _).symm
            have key : s = propLit ++ (r1.takeWhile isWS ++ (quoted name ++
                (r3.takeWhile isWS ++ ('\"' ::
                  (r5.takeWhile (fun c => c != '\"') ++ ('\"' :: rest)))))) := by
              conv_lhs => rw [e0, e1, e2, e3, e4]
            rw [key]
            simp [renderPropFrom, List.append_assoc]
          · intro hmem
            exact absurd (List.mem_takeWhile_imp hmem) (by decide)
        · simp at h
      · simp at h
    · rw [if_neg h2] at h
      simp at h
  · rw [if_neg h1] at h
    simp at h

theorem findPropFull_spec {name s pre : List Char} {m : PropMatch}
    (h : findPropFull name s = some (pre, m)) :
    s = pre ++ renderPropFrom name m ∧ '\"' ∉ m.val := by
  induction s generalizing pre with
  | nil => simp [findPropFull] at h
  | cons c cs ih =>
    rw [findPropFull] at h
    cases hm : matchPropFull name (c :: cs) with
    | some m0 =>
      rw [hm] at h
      simp only [Option.some.injEq, Prod.mk.injEq] at h
      obtain ⟨rfl, rfl⟩ := h
      obtain ⟨hrec, hval⟩ := matchPropFull_spec hm
      exact ⟨by simpa using hrec, hval⟩
    | none =>
      rw [hm] at h
      simp only [Option.map_eq_some'] at h
      obtain ⟨⟨pre', m'⟩, hfind, heq⟩ := h
      simp only [Prod.mk.injEq] at heq
      obtain ⟨rfl, rfl⟩ := heq
      obtain ⟨hrec, hval⟩ := ih hfind
      exact ⟨by simp [hrec], hval⟩

theorem renderPropFrom_length (name : List Char) (m : PropMatch) :
    (renderPropFrom name m).length =
      propLit.length + m.ws1.length + name.length + 2 + m.ws2.length +
        (m.val.length + 1) + (m.rest.length + 1) := by
  simp [renderPropFrom, quoted]
  omega

theorem findPropFull_rest_lt {name s pre : List Char} {m : PropMatch}
    (h : findPropFull name s = some (pre, m)) : m.rest.length < s.length := by
  obtain ⟨hrec, _⟩ := findPropFull_spec h
  have := renderPropFrom_length name m
  have hs : s.length = pre.length + (renderPropFrom name m).length := by
    rw [hrec]; simp
  simp [propLit] at this
  omega

/-! ### `SymbolEditor.ensure_footprint_prefix` -/

def fpName : List Char := "Footprint".data

/-- Match of the footprint pattern
`\(property\s*(?:\n\s*)?"Footprint"\s*(?:\n\s*)?"([^"]+)"` at the start of
`s`.  Since `\s` contains `\n`, the optional groups add nothing, and
`[^"]+` differs from the full matcher only in rejecting an empty value. -/
def matchFp (s : List Char) : Option PropMatch :=
  match matchPropFull fpName s with
  | some m => if m.val = [] then none else some m
  | none => none

/-- Leftmost footprint-pattern match. -/
def findFp : List Char → Option (List Char × PropMatch)
  | [] => none
  | c :: cs =>
    match matchFp (c :: cs) with
    | some m => some ([], m)
    | none => (findFp cs).map (fun pm => (c :: pm.1, pm.2))

/-- The footprint regex's `group(0)`: the matched text, which ends at the
closing quote of the value. -/
def fpGroup0 (m : PropMatch) : List Char :=
  propLit ++ m.ws1 ++ quoted fpName ++ m.ws2 ++ ('\"' :: m.val) ++ ['\"']

theorem matchFp_spec {s : List Char} {m : PropMatch}
    (h : matchFp s = some m) :
    s = renderPropFrom fpName m ∧ '\"' ∉ m.val ∧ m.val ≠ [] := by
  rw [matchFp] at h
  split at h
  · rename_i m0 hm
    split at h
    · simp at h
    · rename_i hv
      obtain rfl : m0 = m := by simpa using h
      obtain ⟨h1, h2⟩ := matchPropFull_spec hm
      exact ⟨h1, h2, hv⟩
  · simp at h

theorem findFp_spec {s pre : List Char} {m : PropMatch}
    (h : findFp s = some (pre, m)) :
    s = pre ++ renderPropFrom fpName m ∧ '\"' ∉ m.val ∧ m.val ≠ [] := by
  induction s generalizing pre with
  | nil => simp [findFp] at h
  | cons c cs ih =>
    rw [findFp] at h
    cases hm : matchFp (c :: cs) with
    | some m0 =>
      rw [hm] at h
      simp only [Option.some.injEq, Prod.mk.injEq] at h
      obtain ⟨rfl, rfl⟩ := h
      obtain ⟨h1, h2, h3⟩ := matchFp_spec hm
      exact ⟨by simpa using h1, h2, h3⟩
    | none =>
      rw [hm] at h
      simp only [Option.map_eq_some'] at h
      obtain ⟨⟨pre', m'⟩, hfind, heq⟩ := h
      simp only [Prod.mk.injEq] at heq
      obtain ⟨rfl, rfl⟩ := heq
      obtain ⟨h1, h2, h3⟩ := ih hfind
      exact ⟨by simp [h1], h2, h3⟩

theorem findFp_rest_lt {s pre : List Char} {m : PropMatch}
    (h : findFp s = some (pre, m)) : m.rest.length < s.length := by
  obtain ⟨h1, _, _⟩ := findFp_spec h
  have := renderPropFrom_length fpName m
  have hs : s.length = pre.length + (renderPropFrom fpName m).length := by
    rw [h1]; simp
  simp [propLit] at this
  omega

/-- The `pattern.subn(repl, ...)` loop of `ensure_footprint_prefix`: find
the leftmost footprint match; values already starting with the prefix are
kept (`return m.group(0)`); otherwise the counter is bumped and the first
occurrence of the quoted value inside `group(0)` is replaced by the quoted
prefixed value; scanning resumes after the match. -/
def subnFootprint : Nat → List Char → List Char → List Char × Nat
  | 0, _, s => (s, 0)
  | fuel + 1, pfx, s =>
    match findFp s with
    | none => (s, 0)
    | some (pre, m) =>
      if beginsWith pfx m.val then
        let t := subnFootprint fuel pfx m.rest
        (pre ++ fpGroup0 m ++ t.1, t.2)
      else
        let piece := replaceFirst (quoted m.val) (quoted (pfx ++ m.val)) (fpGroup0 m)
        let t := subnFootprint fuel pfx m.rest
        (pre ++ piece ++ t.1, t.2 + 1)

/-- Embedding of `SymbolEditor.ensure_footprint_prefix` acting on the loaded block:
returns the new block text and the number of updates. -/
def ensure_footprint_prefix_block (pfx block : List Char) : List Char × Nat :=
  subnFootprint (block.length + 1) pfx block

/-- Claim C5 (code bug witness): on a block whose Footprint *value* is the
string `Footprint` and prefix `LCSC_`, the update hits
`m.group(0).replace('"Footprint"', ..., 1)` whose first occurrence is the
property *name*, so the name is rewritten to `LCSC_Footprint` while the
value stays `Footprint` — the method's docstring says the value is to be
prefixed. -/
theorem C5_ensure_footprint_prefix_bug :
    ensure_footprint_prefix_block ("LCSC_".data)
        ("(property \"Footprint\" \"Footprint\")".data) =
      ("(property \"LCSC_Footprint\" \"Footprint\")".data, 1) := by
  decide

/-! ### `SymbolEditor._ensure_loaded_block` -/

/-- Match of `\(symbol\s+"id"` at the start of `s`. -/
def matchSymId (id s : List Char) : Bool :=
  beginsWith ("(symbol".data) s &&
  (let r1 := s.drop ("(symbol".data).length
   !(r1.takeWhile isWS).isEmpty && beginsWith (quoted id) (r1.dropWhile isWS))

/-- Search (`re.search`) of `\(symbol\s+"id"` over `s`. -/
def searchSymId (id : List Char) : List Char → Bool
  | [] => false
  | c :: cs => matchSymId id (c :: cs) || searchSymId id cs

/-- The head `self._text[s : min(e, s + 200)]` and the search over it. -/
def headMatches (text id : List Char) (se : Nat × Nat) : Bool :=
  searchSymId id ((text.drop se.1).take (min (se.2 - se.1) 200))

/-- Embedding of `SymbolEditor._ensure_loaded_block`: select the first block whose head
matches the symbol id; otherwise fall back to a unique single block;
otherwise fail (`ValueError`, modelled as `none`). -/
def ensureLoadedBlock (text id : List Char) : Option (Nat × Nat) :=
  match (findBlocks text).find? (fun se => headMatches text id se) with
  | some se => some se
  | none =>
    match findBlocks text with
    | [se] => some se
    | _ => none

theorem find?_eq_of_first {α} (l : List α) (p : α → Bool) :
    ∀ (i : Nat) (se : α), l[i]? = some se → p se = true →
      (∀ j, j < i → ((l[j]?).map p).getD false = false) →
      l.find? p = some se := by
  induction l with
  | nil => intro i se h1; simp at h1
  | cons a as ih =>
    intro i se h1 h2 h3
    cases i with
    | zero =>
      obtain rfl : a = se := by simpa using h1
      exact List.find?_cons_of_pos _ h2
    | succ i' =>
      have ha : p a = false := by simpa using h3 0 (by omega)
      rw [List.find?_cons_of_neg _ (by simp [ha])]
      exact ih i' se (by simpa using h1) h2
        (fun j hj => by simpa using h3 (j + 1) (by omega))

/-- Claim C2: `_ensure_loaded_block` selects the first top-level
`(symbol ...)` block whose opening text (first 200 characters of the block)
matches `(symbol "<symbol_id>"`; if no block matches and the file has
exactly one block, that block is selected; if no block matches and the
count is not one, a `ValueError` is raised (modelled as `none`). -/
theorem C2_ensure_loaded_block (text id : List Char) :
    (∀ (i : Nat) (se : Nat × Nat), (findBlocks text)[i]? = some se →
      headMatches text id se = true →
      (∀ j : Nat, j < i →
        (((findBlocks text)[j]?).map (headMatches text id)).getD false = false) →
      ensureLoadedBlock text id = some se) ∧
    ((∀ se ∈ findBlocks text, headMatches text id se = false) →
      ∀ se, findBlocks text = [se] → ensureLoadedBlock text id = some se) ∧
    ((∀ se ∈ findBlocks text, headMatches text id se = false) →
      (findBlocks text).length ≠ 1 → ensureLoadedBlock text id = none) := by
  refine ⟨?_, ?_, ?_⟩
  · intro i se h1 h2 h3
    have := find?_eq_of_first (findBlocks text) (fun se => headMatches text id se) i se h1 h2 h3
    rw [ensureLoadedBlock, this]
  · intro hnone se hone
    have hfind : (findBlocks text).find? (fun se => headMatches text id se) = none := by
      rw [List.find?_eq_none]
      intro x hx
      simp [hnone x hx]
    rw [ensureLoadedBlock, hfind, hone]
  · intro hnone hlen
    have hfind : (findBlocks text).find? (fun se => headMatches text id se) = none := by
      rw [List.find?_eq_none]
      intro x hx
      simp [hnone x hx]
    rw [ensureLoadedBlock, hfind]
    match hbl : findBlocks text with
    | [] => rfl
    | [se] => rw [hbl] at hlen; simp at hlen
    | a :: b :: rest => rfl

/-- Witness for C2: in a two-symbol file, the block for `B` (the second
block) is selected, the single-block fallback fires for an id that matches
nothing, and a two-block file with no match raises. -/
theorem C2_ensure_loaded_block_witness :
    ensureLoadedBlock ("(symbol \"A\" (p))(symbol \"B\" (q))".data) ("B".data) =
      some (16, 32) ∧
    ensureLoadedBlock ("(symbol \"A\" (p))".data) ("Z".data) = some (0, 16) ∧
    ensureLoadedBlock ("(symbol \"A\" (p))(symbol \"B\" (q))".data) ("Z".data) =
      none := by
  refine ⟨?_, ?_, ?_⟩
  · exact (C2_ensure_loaded_block _ _).1 1 (16, 32) (by decide) (by decide)
      (by decide)
  · exact (C2_ensure_loaded_block _ _).2.1 (by decide) (0, 16) (by decide)
  · exact (C2_ensure_loaded_block _ _).2.2 (by decide) (by decide)

/-! ### `lib_tables.py`: `LibTablesManager._ensure_entry` and
`LibTablesManager._unique_name` -/

/-- Embedding of `LibTablesManager._init_table`. -/
def initTable (kind : List Char) : List Char :=
  if kind = "sym".data then "(sym_lib_table\r\n  (version 7))\r\n".data
  else "(fp_lib_table\r\n  (version 7))\r\n".data

/-- The duplicate-detection key `(uri "<uri>")`. -/
def uriPat (uri : List Char) : List Char :=
  "(uri \"".data ++ uri ++ "\")".data

/-- The duplicate-detection key `(name "<name>")`. -/
def namePat (nm : List Char) : List Char :=
  "(name \"".data ++ nm ++ "\")".data

/-- The inserted `(lib ...)` line of `_ensure_entry`. -/
def entryLine (nm uri : List Char) : List Char :=
  "  (lib ".data ++ namePat nm ++ "(type \"KiCad\")".data ++ uriPat uri ++
    "(options \"\")(descr \"\"))\n".data

/-- Embedding of `LibTablesManager._ensure_entry` on the file content (reading and
writing the file is abstracted away: the returned string is what gets
written, and `false` means no write happens so the file keeps `content`). -/
def ensureEntryContent (content kind nm uri : List Char) : List Char × Bool :=
  let c := if content = [] then initTable kind else content
  if containsSub (uriPat uri) c || containsSub (namePat nm) c then
    (content, false)
  else
    let stripped := stripEndWS c
    match rfindChar ')' stripped with
    | some idx =>
      (stripped.take idx ++ entryLine nm uri ++ stripped.drop idx ++ ['\n'], true)
    | none =>
      -- dead in practice: the reinitialised table always has a `)`
      let st2 := stripEndWS (initTable kind)
      match rfindChar ')' st2 with
      | some idx2 =>
        (st2.take idx2 ++ entryLine nm uri ++ st2.drop idx2 ++ ['\n'], true)
      | none => (st2 ++ entryLine nm uri ++ ['\n'], true)

theorem mem_stripEndWS {c : Char} {s : List Char} (hws : isWS c = false)
    (h : c ∈ s) : c ∈ stripEndWS s := by
  rw [stripEndWS]
  rw [List.mem_reverse]
  have h2 : c ∈ s.reverse := List.mem_reverse.mpr h
  conv at h2 => rw [← List.takeWhile_append_dropWhile (p := isWS) (l := s.reverse)]
  rcases List.mem_append.mp h2 with h3 | h3
  · have := List.mem_takeWhile_imp h3
    rw [hws] at this
    cases this
  · exact h3

theorem beginsWith_nil_iff (p : List Char) :
    beginsWith p [] = true ↔ p = [] := by
  cases p <;> simp [beginsWith]

theorem containsSub_nil_iff (p : List Char) :
    containsSub p [] = true ↔ p = [] := by
  simp [containsSub, beginsWith_nil_iff]

theorem ensureEntryContent_skip {content kind nm uri : List Char}
    (h : (containsSub (uriPat uri) (if content = [] then initTable kind else content) ||
          containsSub (namePat nm) (if content = [] then initTable kind else content)) = true) :
    ensureEntryContent content kind nm uri = (content, false) := by
  rw [ensureEntryContent]
  simp [h]

theorem ensureEntryContent_insert {content kind nm uri : List Char} {idx : Nat}
    (h : (containsSub (uriPat uri) (if content = [] then initTable kind else content) ||
          containsSub (namePat nm) (if content = [] then initTable kind else content)) = false)
    (hidx : rfindChar ')'
      (stripEndWS (if content = [] then initTable kind else content)) = some idx) :
    ensureEntryContent content kind nm uri =
      ((stripEndWS (if content = [] then initTable kind else content)).take idx ++
        entryLine nm uri ++
        (stripEndWS (if content = [] then initTable kind else content)).drop idx ++
        ['\n'], true) := by
  rw [ensureEntryContent]
  simp [h, hidx, List.append_assoc]

theorem drop_of_eq_append {A B st : List Char} {c : Char} {idx : Nat}
    (h : st = A ++ c :: B) (hlen : A.length = idx) : st.drop idx = c :: B := by
  subst hlen
  rw [h]
  exact List.drop_left A (c :: B)

/-- Claim C3: `_ensure_entry` is idempotent and duplicate-avoiding.
If the (initialised) content already contains the uri or name key it
returns `false` and the content is unchanged; otherwise (when the table
has a final closing paren) it inserts exactly the one `(lib ...)` line
right before that final closing paren and returns `true`; and a second
call with the same name and uri then returns `false` leaving the content
identical. -/
theorem C3_ensure_entry (content kind nm uri : List Char) :
    (containsSub (uriPat uri) (if content = [] then initTable kind else content) = true ∨
     containsSub (namePat nm) (if content = [] then initTable kind else content) = true →
      ensureEntryContent content kind nm uri = (content, false)) ∧
    (containsSub (uriPat uri) (if content = [] then initTable kind else content) = false →
     containsSub (namePat nm) (if content = [] then initTable kind else content) = false →
     ')' ∈ (if content = [] then initTable kind else content) →
      ∃ A B, stripEndWS (if content = [] then initTable kind else content) =
          A ++ ')' :: B ∧ ')' ∉ B ∧
        ensureEntryContent content kind nm uri =
          (A ++ entryLine nm uri ++ ')' :: B ++ ['\n'], true) ∧
        ensureEntryContent (A ++ entryLine nm uri ++ ')' :: B ++ ['\n']) kind nm uri =
          (A ++ entryLine nm uri ++ ')' :: B ++ ['\n'], false)) := by
  constructor
  · intro h
    refine ensureEntryContent_skip ?_
    rcases h with h | h <;> simp [h]
  · intro h1 h2 hmem
    have hcond : (containsSub (uriPat uri)
        (if content = [] then initTable kind else content) ||
        containsSub (namePat nm)
        (if content = [] then initTable kind else content)) = false := by
      simp [h1, h2]
    have hmem2 : ')' ∈ stripEndWS (if content = [] then initTable kind else content) :=
      mem_stripEndWS (by decide) hmem
    cases hidx : rfindChar ')'
        (stripEndWS (if content = [] then initTable kind else content)) with
    | none => exact absurd hmem2 (rfindChar_none hidx)
    | some idx =>
      obtain ⟨hlt, heq, hafter⟩ := rfindChar_spec hidx
      set st := stripEndWS (if content = [] then initTable kind else content) with hst
      refine ⟨st.take idx, st.drop (idx + 1), heq, hafter, ?_, ?_⟩
      · have hdrop : st.drop idx = ')' :: st.drop (idx + 1) :=
          drop_of_eq_append heq (by simp; omega)
        rw [ensureEntryContent_insert hcond hidx, hdrop]
      · -- second call: the inserted line contains the name key
        set c2 := st.take idx ++ entryLine nm uri ++
          ')' :: st.drop (idx + 1) ++ ['\n'] with hc2
        have hne : ¬ (c2 = []) := by
          rw [hc2]
          simp [entryLine]
        have hhas : containsSub (namePat nm) c2 = true := by
          rw [hc2]
          -- c2 = (take ++ "  (lib ") ++ namePat nm ++ (rest)
          have : st.take idx ++ entryLine nm uri ++
              ')' :: st.drop (idx + 1) ++ ['\n'] =
              (st.take idx ++ "  (lib ".data) ++ namePat nm ++
                ("(type \"KiCad\")".data ++ uriPat uri ++
                  "(options \"\")(descr \"\"))\n".data ++
                  (')' :: st.drop (idx + 1) ++ ['\n'])) := by
            simp [entryLine, List.append_assoc]
          rw [this]
          exact containsSub_append_mid _ _ _
        refine ensureEntryContent_skip ?_
        rw [if_neg hne]
        simp [hhas]

/-- Witness for C3 at concrete inputs: an empty table file gets the entry
inserted before the final paren of the fresh table, and the call on the
resulting content is a no-op returning `false`; a table already naming the
library returns `false` unchanged. -/
theorem C3_ensure_entry_witness :
    (∃ A B, stripEndWS (initTable ("sym".data)) = A ++ ')' :: B ∧ ')' ∉ B ∧
      ensureEntryContent [] ("sym".data) ("L".data) ("U".data) =
        (A ++ entryLine ("L".data) ("U".data) ++ ')' :: B ++ ['\n'], true) ∧
      ensureEntryContent (A ++ entryLine ("L".data) ("U".data) ++ ')' :: B ++ ['\n'])
          ("sym".data) ("L".data) ("U".data) =
        (A ++ entryLine ("L".data) ("U".data) ++ ')' :: B ++ ['\n'], false)) ∧
    ensureEntryContent ("(sym_lib_table (name \"L\"))".data) ("sym".data)
        ("L".data) ("U".data) =
      ("(sym_lib_table (name \"L\"))".data, false) := by
  constructor
  · exact (C3_ensure_entry [] ("sym".data) ("L".data) ("U".data)).2
      (by decide) (by decide) (by decide)
  · exact (C3_ensure_entry ("(sym_lib_table (name \"L\"))".data) ("sym".data)
      ("L".data) ("U".data)).1 (by decide)

theorem natToCharsGo_fuel_irrel :
    ∀ fuel fuel' n, n < fuel → n < fuel' →
      natToCharsGo fuel n = natToCharsGo fuel' n := by
  intro fuel
  induction fuel with
  | zero => intro fuel' n h _; omega
  | succ fuel ih =>
    intro fuel' n h h'
    cases fuel' with
    | zero => omega
    | succ fuel' =>
      rw [natToCharsGo, natToCharsGo]
      by_cases h10 : n < 10
      · rw [if_pos h10, if_pos h10]
      · rw [if_neg h10, if_neg h10]
        have hdiv : n / 10 < n := Nat.div_lt_self (by omega) (by omega)
        rw [ih fuel' (n / 10) (by omega) (by omega)]

/-- Reading a digit string back (to certify the decimal rendering). -/
def charsToNat (s : List Char) : Nat :=
  s.foldl (fun a c => a * 10 + (c.toNat - 48)) 0

theorem toNat_digitChar {r : Nat} (h : r < 10) :
    (Char.ofNat (48 + r)).toNat = 48 + r := by
  interval_cases r <;> decide

theorem charsToNat_append_digit (l : List Char) (c : Char) :
    charsToNat (l ++ [c]) = charsToNat l * 10 + (c.toNat - 48) := by
  simp [charsToNat, List.foldl_append]

theorem charsToNat_natToCharsGo :
    ∀ fuel n, n < fuel → charsToNat (natToCharsGo fuel n) = n := by
  intro fuel
  induction fuel with
  | zero => intro n h; omega
  | succ fuel ih =>
    intro n h
    rw [natToCharsGo]
    by_cases h10 : n < 10
    · rw [if_pos h10]
      simp [charsToNat, toNat_digitChar h10]
    · rw [if_neg h10]
      rw [charsToNat_append_digit]
      have hdiv : n / 10 < n := Nat.div_lt_self (by omega) (by omega)
      rw [ih (n / 10) (by omega)]
      rw [toNat_digitChar (by omega)]
      omega

/-- The decimal rendering round-trips: `natToChars` really is `str(i)`. -/
theorem charsToNat_natToChars (n : Nat) : charsToNat (natToChars n) = n :=
  charsToNat_natToCharsGo (n + 1) n (by omega)

/-- The candidate name `base_i` tried by `_unique_name`. -/
def idxName (base : List Char) (i : Nat) : List Char :=
  base ++ '_' :: natToChars i

/-- The `while` loop of `_unique_name`: starting at `i`, return the first
index whose `(name "base_i")` key is absent from `existing`.  The fuel only
bounds iterations; a free index provably exists within
`10 ^ (existing.length + 1)` steps. -/
def firstFreeIdx (base existing : List Char) : Nat → Nat → Option Nat
  | 0, _ => none
  | fuel + 1, i =>
    if containsSub (namePat (idxName base i)) existing = true then
      firstFreeIdx base existing fuel (i + 1)
    else some i

/-- Embedding of `LibTablesManager._unique_name`. -/
def unique_name (base existing : List Char) : List Char :=
  if existing ≠ [] ∧ containsSub (namePat base) existing = true then
    match firstFreeIdx base existing (10 ^ (existing.length + 1)) 1 with
    | some i => idxName base i
    | none => base
  else base

theorem natToCharsGo_ne_nil {fuel n : Nat} (h : 0 < fuel) :
    natToCharsGo fuel n ≠ [] := by
  cases fuel with
  | zero => omega
  | succ fuel =>
    rw [natToCharsGo]
    by_cases h10 : n < 10
    · simp [h10]
    · simp [h10]

theorem natToCharsGo_len :
    ∀ fuel n k, n < fuel → 10 ^ k ≤ n → k < (natToCharsGo fuel n).length := by
  intro fuel
  induction fuel with
  | zero => intro n k h; omega
  | succ fuel ih =>
    intro n k hn hk
    rw [natToCharsGo]
    by_cases h10 : n < 10
    · have hk0 : k = 0 := by
        by_contra hne
        have h1 : (10 : Nat) ^ 1 ≤ 10 ^ k :=
          Nat.pow_le_pow_right (by omega) (by omega)
        simp at h1
        omega
      subst hk0
      simp [h10]
    · rw [if_neg h10]
      simp only [List.length_append, List.length_cons, List.length_nil]
      cases k with
      | zero =>
        have : natToCharsGo fuel (n / 10) ≠ [] := by
          refine natToCharsGo_ne_nil ?_
          have : n / 10 < n := Nat.div_lt_self (by omega) (by omega)
          omega
        have : 0 < (natToCharsGo fuel (n / 10)).length :=
          List.length_pos.mpr this
        omega
      | succ k' =>
        have hdiv : 10 ^ k' ≤ n / 10 := by
          rw [Nat.le_div_iff_mul_le (by omega)]
          calc 10 ^ k' * 10 = 10 ^ (k' + 1) := by rw [Nat.pow_succ]
            _ ≤ n := hk
        have hfuel : n / 10 < fuel := by
          have : n / 10 < n := Nat.div_lt_self (by omega) (by omega)
          omega
        have := ih (n / 10) k' hfuel hdiv
        omega

theorem natToChars_len {n k : Nat} (h : 10 ^ k ≤ n) :
    k < (natToChars n).length :=
  natToCharsGo_len (n + 1) n k (by omega) h

theorem namePat_idxName_len (base : List Char) (i : Nat) :
    (natToChars i).length ≤ (namePat (idxName base i)).length := by
  simp [namePat, idxName]
  omega

/-- A provably-free index: `10 ^ existing.length` renders with more digits
than `existing` has characters, so its key cannot occur in `existing`. -/
theorem free_index_exists (base existing : List Char) :
    containsSub (namePat (idxName base (10 ^ existing.length))) existing = false := by
  by_contra hcon
  simp only [Bool.not_eq_false] at hcon
  have hlen := containsSub_length hcon
  have h1 : existing.length < (natToChars (10 ^ existing.length)).length :=
    natToChars_len (Nat.le_refl _)
  have h2 := namePat_idxName_len base (10 ^ existing.length)
  omega

theorem firstFreeIdx_spec {base existing : List Char} :
    ∀ fuel i r, firstFreeIdx base existing fuel i = some r →
      i ≤ r ∧ containsSub (namePat (idxName base r)) existing = false ∧
      ∀ j, i ≤ j → j < r → containsSub (namePat (idxName base j)) existing = true := by
  intro fuel
  induction fuel with
  | zero => intro i r h; simp [firstFreeIdx] at h
  | succ fuel ih =>
    intro i r h
    rw [firstFreeIdx] at h
    by_cases hc : containsSub (namePat (idxName base i)) existing = true
    · rw [if_pos hc] at h
      obtain ⟨h1, h2, h3⟩ := ih (i + 1) r h
      refine ⟨by omega, h2, ?_⟩
      intro j hj1 hj2
      by_cases hji : j = i
      · subst hji; exact hc
      · exact h3 j (by omega) hj2
    · rw [if_neg hc] at h
      obtain rfl : i = r := by simpa using h
      exact ⟨Nat.le_refl _, by simpa using hc, by omega⟩

theorem firstFreeIdx_isSome {base existing : List Char} :
    ∀ fuel i j, i ≤ j → j < i + fuel →
      containsSub (namePat (idxName base j)) existing = false →
      (firstFreeIdx base existing fuel i).isSome = true := by
  intro fuel
  induction fuel with
  | zero => intro i j h1 h2; omega
  | succ fuel ih =>
    intro i j h1 h2 hfree
    rw [firstFreeIdx]
    by_cases hc : containsSub (namePat (idxName base i)) existing = true
    · rw [if_pos hc]
      have hji : j ≠ i := by
        intro h
        rw [h] at hfree
        rw [hfree] at hc
        cases hc
      exact ih (i + 1) j (by omega) (by omega) hfree
    · rw [if_neg hc]
      rfl

/-- Claim C8: `_unique_name(base, existing)` returns `base` when
`(name "<base>")` does not occur in `existing`, and otherwise returns
`base_i` for the smallest `i ≥ 1` such that `(name "<base>_<i>")` does not
occur; in every case the key of the returned name does not occur in
`existing`. -/
theorem C8_unique_name (base existing : List Char) :
    (containsSub (namePat base) existing = false →
      unique_name base existing = base) ∧
    (existing ≠ [] → containsSub (namePat base) existing = true →
      ∃ i, 1 ≤ i ∧ unique_name base existing = idxName base i ∧
        containsSub (namePat (idxName base i)) existing = false ∧
        ∀ j, 1 ≤ j → j < i →
          containsSub (namePat (idxName base j)) existing = true) ∧
    containsSub (namePat (unique_name base existing)) existing = false := by
  have hfree := free_index_exists base existing
  have hsome : (firstFreeIdx base existing (10 ^ (existing.length + 1)) 1).isSome
      = true := by
    refine firstFreeIdx_isSome (10 ^ (existing.length + 1)) 1
      (10 ^ existing.length) ?_ ?_ hfree
    · exact Nat.one_le_pow _ _ (by omega)
    · have := Nat.pow_lt_pow_succ (a := 10) (by omega) (n := existing.length)
      omega
  refine ⟨?_, ?_, ?_⟩
  · intro h
    rw [unique_name, if_neg]
    intro ⟨_, hcon⟩
    rw [h] at hcon
    cases hcon
  · intro hne hcon
    rw [unique_name, if_pos ⟨hne, hcon⟩]
    cases hff : firstFreeIdx base existing (10 ^ (existing.length + 1)) 1 with
    | none => rw [hff] at hsome; simp at hsome
    | some i =>
      obtain ⟨h1, h2, h3⟩ := firstFreeIdx_spec _ _ _ hff
      exact ⟨i, h1, rfl, h2, fun j hj1 hj2 => h3 j hj1 hj2⟩
  · rw [unique_name]
    by_cases hcond : existing ≠ [] ∧ containsSub (namePat base) existing = true
    · rw [if_pos hcond]
      cases hff : firstFreeIdx base existing (10 ^ (existing.length + 1)) 1 with
      | none => rw [hff] at hsome; simp at hsome
      | some i => exact (firstFreeIdx_spec _ _ _ hff).2.1
    · rw [if_neg hcond]
      rcases Decidable.not_and_iff_or_not.mp hcond with h | h
      · simp only [ne_eq, Decidable.not_not] at h
        subst h
        cases hemp : containsSub (namePat base) [] with
        | false => rfl
        | true =>
          have := (containsSub_nil_iff (namePat base)).mp hemp
          simp [namePat] at this
      · simpa using h

/-- Witness for C8 at concrete inputs: with `(name "L")` and `(name "L_1")`
already present, `L_2` is chosen; with nothing matching, `L` itself is
kept. -/
theorem C8_unique_name_witness :
    unique_name ("L".data) ("(abc)".data) = "L".data ∧
    (∃ i, 1 ≤ i ∧
      unique_name ("L".data) ("(name \"L\")(name \"L_1\")".data) =
        idxName ("L".data) i ∧
      containsSub (namePat (idxName ("L".data) i))
        ("(name \"L\")(name \"L_1\")".data) = false ∧
      ∀ j, 1 ≤ j → j < i →
        containsSub (namePat (idxName ("L".data) j))
          ("(name \"L\")(name \"L_1\")".data) = true) := by
  constructor
  · exact (C8_unique_name ("L".data) ("(abc)".data)).1 (by decide)
  · exact (C8_unique_name ("L".data) ("(name \"L\")(name \"L_1\")".data)).2.1
      (by decide) (by decide)

/-! ### `footprint_editor.py`: `FootprintEditor._is_abs` and
`FootprintEditor.relativize_3d_model_paths`

Filesystem traversal (`rglob`) and path resolution (`Path.resolve`,
`relative_to`) are abstracted: `resolve` maps a normalised path string to
its resolved segment list (`none` when resolution fails), and the project
directory is its segment list; `relative_to` succeeding is exactly the
project segments being a prefix. -/

def isAlphaAZ (c : Char) : Bool :=
  ('A' ≤ c && c ≤ 'Z') || ('a' ≤ c && c ≤ 'z')

/-- Embedding of `FootprintEditor._is_abs`. -/
def is_abs (p : List Char) : Bool :=
  (match p with
   | '/' :: _ => true
   | _ => false) ||
  (match p with
   | a :: ':' :: sl :: _ => isAlphaAZ a && (sl = '\\' || sl = '/')
   | _ => false) ||
  (match p with
   | '\\' :: '\\' :: _ => true
   | _ => false)

/-- Embedding of `original.replace(chr(92), "/")`. -/
def normSlash (p : List Char) : List Char :=
  p.map (fun c => if c = '\\' then '/' else c)

/-- Embedding of `rel.as_posix()`; an empty relative path renders as `.`. -/
def relPosix (segs : List (List Char)) : List Char :=
  if segs = [] then ".".data else List.intercalate ['/'] segs

/-- Segment-list prefix test (success of `Path.relative_to`). -/
def segsBeginsWith : List (List Char) → List (List Char) → Bool
  | [], _ => true
  | _ :: _, [] => false
  | p :: ps, c :: cs => p = c && segsBeginsWith ps cs

/-- The `repl` closure of `relativize_3d_model_paths` acting on one matched
path: keep paths containing `${`, non-absolute paths, and paths that do not
resolve under the project directory; rewrite the rest to
`${KIPRJMOD}/<relative posix path>`. -/
def modelRepl (resolve : List Char → Option (List (List Char)))
    (projSegs : List (List Char)) (orig : List Char) : List Char :=
  if containsSub ("$\x7b".data) orig = true then orig
  else
    let norm := normSlash orig
    if is_abs norm = false then orig
    else
      match resolve norm with
      | none => orig
      | some segs =>
        if segsBeginsWith projSegs segs = true then
          let newp := "$\x7bKIPRJMOD\x7d/".data ++ relPosix (segs.drop projSegs.length)
          if newp = orig then orig else newp
        else orig

/-- Structure of a `\(model\s+"([^"]+)"` match at the start of a string. -/
structure ModelMatch where
  ws : List Char
  val : List Char
  rest : List Char
deriving DecidableEq

def matchModel (s : List Char) : Option ModelMatch :=
  if beginsWith ("(model".data) s then
    let r1 := s.drop ("(model".data).length
    let ws := r1.takeWhile isWS
    if ws.isEmpty then none
    else
      match r1.dropWhile isWS with
      | '\"' :: r2 =>
        let val := r2.takeWhile (fun c => c != '\"')
        if val.isEmpty then none
        else
          match r2.dropWhile (fun c => c != '\"') with
          | '\"' :: rest => some ⟨ws, val, rest⟩
          | _ => none
      | _ => none
  else none

/-- Leftmost `(model "...")` match. -/
def findModel : List Char → Option (List Char × ModelMatch)
  | [] => none
  | c :: cs =>
    match matchModel (c :: cs) with
    | some m => some ([], m)
    | none => (findModel cs).map (fun pm => (c :: pm.1, pm.2))

/-- The `group(0)` of the model regex (ends at the closing quote). -/
def modelGroup0 (m : ModelMatch) : List Char :=
  "(model".data ++ m.ws ++ ('\"' :: m.val) ++ ['\"']

/-- The `pattern.sub(repl, text)` loop over one footprint file's text,
with the per-occurrence counter (`changes_here`). -/
def relativizeSubn (resolve : List Char → Option (List (List Char)))
    (projSegs : List (List Char)) : Nat → List Char → List Char × Nat
  | 0, s => (s, 0)
  | fuel + 1, s =>
    match findModel s with
    | none => (s, 0)
    | some (pre, m) =>
      let newVal := modelRepl resolve projSegs m.val
      if newVal = m.val then
        let t := relativizeSubn resolve projSegs fuel m.rest
        (pre ++ modelGroup0 m ++ t.1, t.2)
      else
        let piece := replaceFirst (quoted m.val) (quoted newVal) (modelGroup0 m)
        let t := relativizeSubn resolve projSegs fuel m.rest
        (pre ++ piece ++ t.1, t.2 + 1)

/-- One file's rewrite: new text and number of replacements. -/
def relativizeFileText (resolve : List Char → Option (List (List Char)))
    (projSegs : List (List Char)) (text : List Char) : List Char × Nat :=
  relativizeSubn resolve projSegs (text.length + 1) text

/-- Embedding of `FootprintEditor.relativize_3d_model_paths`: the returned total over
the scanned files. -/
def relativize_3d_model_paths (resolve : List Char → Option (List (List Char)))
    (projSegs : List (List Char)) (files : List (List Char)) : Nat :=
  (files.map (fun t => (relativizeFileText resolve projSegs t).2)).sum

/-- The values of the `(model "...")` occurrences the subn loop visits. -/
def collectModelVals : Nat → List Char → List (List Char)
  | 0, _ => []
  | fuel + 1, s =>
    match findModel s with
    | none => []
    | some (_, m) => m.val :: collectModelVals fuel m.rest

theorem relativizeSubn_count (resolve : List Char → Option (List (List Char)))
    (projSegs : List (List Char)) :
    ∀ fuel s, (relativizeSubn resolve projSegs fuel s).2 =
      List.countP (fun v => decide (modelRepl resolve projSegs v ≠ v))
        (collectModelVals fuel s) := by
  intro fuel
  induction fuel with
  | zero => intro s; simp [relativizeSubn, collectModelVals]
  | succ fuel ih =>
    intro s
    rw [relativizeSubn, collectModelVals]
    cases hf : findModel s with
    | none => simp
    | some pm =>
      obtain ⟨pre, m⟩ := pm
      simp only [List.countP_cons]
      by_cases hch : modelRepl resolve projSegs m.val = m.val
      · simp [hch, ih]
      · simp [hch, ih]

/-- Claim C4: each `(model "<path>")` occurrence is left unchanged when the
path contains `${`, is not absolute, or does not resolve under the project
directory; otherwise it is rewritten to `${KIPRJMOD}/<project-relative
posix path>`; and the method's return value is the total number of
rewritten occurrences over the scanned files. -/
theorem C4_relativize_3d_model_paths
    (resolve : List Char → Option (List (List Char)))
    (projSegs : List (List Char)) :
    (∀ orig, containsSub ("$\x7b".data) orig = true →
      modelRepl resolve projSegs orig = orig) ∧
    (∀ orig, is_abs (normSlash orig) = false →
      modelRepl resolve projSegs orig = orig) ∧
    (∀ orig, resolve (normSlash orig) = none →
      modelRepl resolve projSegs orig = orig) ∧
    (∀ orig segs, resolve (normSlash orig) = some segs →
      segsBeginsWith projSegs segs = false →
      modelRepl resolve projSegs orig = orig) ∧
    (∀ orig segs, containsSub ("$\x7b".data) orig = false →
      is_abs (normSlash orig) = true →
      resolve (normSlash orig) = some segs →
      segsBeginsWith projSegs segs = true →
      modelRepl resolve projSegs orig =
        "$\x7bKIPRJMOD\x7d/".data ++ relPosix (segs.drop projSegs.length)) ∧
    (∀ files, relativize_3d_model_paths resolve projSegs files =
      (files.map (fun t =>
        List.countP (fun v => decide (modelRepl resolve projSegs v ≠ v))
          (collectModelVals (t.length + 1) t))).sum) := by
  refine ⟨?_, ?_, ?_, ?_, ?_, ?_⟩
  · intro orig h
    rw [modelRepl, if_pos h]
  · intro orig h
    rw [modelRepl]
    by_cases h1 : containsSub ("$\x7b".data) orig = true
    · rw [if_pos h1]
    · rw [if_neg h1]
      simp only [h, if_pos]
  · intro orig h
    rw [modelRepl]
    by_cases h1 : containsSub ("$\x7b".data) orig = true
    · rw [if_pos h1]
    · rw [if_neg h1]
      by_cases h2 : is_abs (normSlash orig) = false
      · simp only [h2, if_pos]
      · simp only [h2, if_neg, h]
        simp
  · intro orig segs h hpre
    rw [modelRepl]
    by_cases h1 : containsSub ("$\x7b".data) orig = true
    · rw [if_pos h1]
    · rw [if_neg h1]
      by_cases h2 : is_abs (normSlash orig) = false
      · simp only [h2, if_pos]
      · simp only [h2, if_neg, h, hpre]
        simp
  · intro orig segs h1 h2 h3 h4
    rw [modelRepl, if_neg (by simp [h1]), if_neg (by simp [h2])]
    simp only [h3, h4, if_pos]
    have hne : "$\x7bKIPRJMOD\x7d/".data ++ relPosix (segs.drop projSegs.length) ≠
        orig := by
      intro heq
      have hb : beginsWith ("$\x7b".data)
          ("$\x7bKIPRJMOD\x7d/".data ++ relPosix (segs.drop projSegs.length)) = true := by
        have : "$\x7bKIPRJMOD\x7d/".data ++ relPosix (segs.drop projSegs.length) =
            "$\x7b".data ++ ("KIPRJMOD\x7d/".data ++
              relPosix (segs.drop projSegs.length)) := by
          simp
        rw [this]
        exact beginsWith_append _ _
      rw [heq] at hb
      rw [containsSub_of_beginsWith hb] at h1
      cases h1
    simp only [hne, if_neg]
    simp
  · intro files
    rw [relativize_3d_model_paths]
    simp only [relativizeFileText, relativizeSubn_count]

/-- A concrete resolver for the C4 witness: only `/proj/lib/m.step`
resolves, to the segments `proj / lib / m.step`. -/
def resolveDemo : List Char → Option (List (List Char)) :=
  fun p =>
    if p = "/proj/lib/m.step".data then
      some ["proj".data, "lib".data, "m.step".data]
    else none

/-- Witness for C4 at concrete inputs: a `${}`-path and a relative path are
kept, an absolute in-project path is rewritten, and the total over one file
is the count of changed occurrences. -/
theorem C4_relativize_3d_model_paths_witness :
    modelRepl resolveDemo ["proj".data] ("$\x7bKIPRJMOD\x7d/x.step".data) =
      "$\x7bKIPRJMOD\x7d/x.step".data ∧
    modelRepl resolveDemo ["proj".data] ("lib/m.step".data) = "lib/m.step".data ∧
    modelRepl resolveDemo ["proj".data] ("/proj/lib/m.step".data) =
      "$\x7bKIPRJMOD\x7d/".data ++
        relPosix ((["proj".data, "lib".data, "m.step".data]).drop
          (["proj".data] : List (List Char)).length) ∧
    relativize_3d_model_paths resolveDemo ["proj".data]
        ["(model \"/proj/lib/m.step\")".data] =
      (List.map (fun t =>
          List.countP (fun v => decide (modelRepl resolveDemo ["proj".data] v ≠ v))
            (collectModelVals (t.length + 1) t))
        ["(model \"/proj/lib/m.step\")".data]).sum := by
  refine ⟨?_, ?_, ?_, ?_⟩
  · exact (C4_relativize_3d_model_paths resolveDemo ["proj".data]).1 _ (by decide)
  · exact (C4_relativize_3d_model_paths resolveDemo ["proj".data]).2.1 _ (by decide)
  · exact (C4_relativize_3d_model_paths resolveDemo ["proj".data]).2.2.2.2.1 _ _
      (by decide) (by decide) (by decide) (by decide)
  · exact (C4_relativize_3d_model_paths resolveDemo ["proj".data]).2.2.2.2.2 _

/-! ### `SymbolEditor.apply_properties` and its helpers -/

/-- Match of `\(property\s*"name"[\s\S]*?\)` (the `_extract_template`
pattern) at the start of `s`: the lazy tail stops at the first `)`. -/
def matchTempl (name s : List Char) : Option (List Char) :=
  if beginsWith propLit s then
    let r1 := s.drop propLit.length
    let ws1 := r1.takeWhile isWS
    let r2 := r1.dropWhile isWS
    if beginsWith (quoted name) r2 then
      let r3 := r2.drop (quoted name).length
      let body := r3.takeWhile (fun c => c != ')')
      match r3.dropWhile (fun c => c != ')') with
      | ')' :: _ => some (propLit ++ ws1 ++ quoted name ++ body ++ [')'])
      | _ => none
    else none
  else none

def findTempl (name : List Char) : List Char → Option (List Char)
  | [] => none
  | c :: cs =>
    match matchTempl name (c :: cs) with
    | some p => some p
    | none => findTempl name cs

/-- Match of `\(at[^\)]*\)` at the start of `s`. -/
def matchAtTok (s : List Char) : Option (List Char) :=
  if beginsWith "(at".data s then
    let r := s.drop ("(at".data).length
    let body := r.takeWhile (fun c => c != ')')
    match r.dropWhile (fun c => c != ')') with
    | ')' :: _ => some ("(at".data ++ body ++ [')'])
    | _ => none
  else none

def findAtTok : List Char → Option (List Char)
  | [] => none
  | c :: cs =>
    match matchAtTok (c :: cs) with
    | some p => some p
    | none => findAtTok cs

/-- Match of `\(effects[\s\S]*?\)` at the start of `s`. -/
def matchEffTok (s : List Char) : Option (List Char) :=
  if beginsWith "(effects".data s then
    let r := s.drop ("(effects".data).length
    let body := r.takeWhile (fun c => c != ')')
    match r.dropWhile (fun c => c != ')') with
    | ')' :: _ => some ("(effects".data ++ body ++ [')'])
    | _ => none
  else none

def findEffTok : List Char → Option (List Char)
  | [] => none
  | c :: cs =>
    match matchEffTok (c :: cs) with
    | some p => some p
    | none => findEffTok cs

/-- Embedding of `str.splitlines` restricted to `\n` separators. -/
def splitLinesNL : List Char → List (List Char)
  | [] => [[]]
  | c :: cs =>
    if c = '\n' then [] :: splitLinesNL cs
    else
      match splitLinesNL cs with
      | l :: ls => (c :: l) :: ls
      | [] => [[c]]

/-- The indentation of the first line whose stripped text starts with
`(property `; two spaces otherwise. -/
def indentOf (block : List Char) : List Char :=
  match (splitLinesNL block).find?
      (fun ln => beginsWith "(property ".data (stripWS ln)) with
  | some ln => ln.takeWhile isWS
  | none => "  ".data

/-- Embedding of `SymbolEditor._extract_template`: `(indent, at-token, effects-token)`. -/
def extract_template (block : List Char) : List Char × List Char × List Char :=
  let prop :=
    match findTempl fpName block with
    | some p => p
    | none =>
      match findTempl ("Value".data) block with
      | some p => p
      | none => "(property \"X\" \"Y\")".data
  let atTok := (findAtTok prop).getD []
  let effTok := (findEffTok prop).getD []
  (indentOf block, atTok, effTok)

/-- Embedding of `SymbolEditor._ensure_hide_effects`. -/
def ensure_hide_effects (effects : List Char) : List Char :=
  if effects = [] ∨ containsSub "(effects".data effects = false then
    "(effects (font (size 1.27 1.27)) (hide yes))".data
  else if containsSub "hide".data effects = true then effects
  else
    match rfindChar ')' effects with
    | none => effects ++ " (hide yes)".data
    | some idx => effects.take idx ++ " (hide yes)".data ++ effects.drop idx

/-- The inserted property line
`f"{indent}(property \"{name}\" \"{safe_val}\"{extra})\n"`. -/
def newPropLine (indent name safeVal extra : List Char) : List Char :=
  indent ++ "(property \"".data ++ name ++ "\" \"".data ++ safeVal ++ ['\"'] ++
    extra ++ [')', '\n']

/-- Embedding of `properties.get(key)`: `none` models both a missing key and a stored
`None` (equivalent under the `or`-chains and truthiness tests that consume
it). -/
def getAssoc : List (List Char × Option (List Char)) → List Char → Option (List Char)
  | [], _ => none
  | (k, v) :: rest, n =>
    if k = n then
      match v with
      | some x => some x
      | none => none
    else getAssoc rest n

/-- Python's `a or b` on optional strings: empty and missing fall
through. -/
def pyOr (a b : Option (List Char)) : Option (List Char) :=
  match a with
  | some v => if v = [] then b else some v
  | none => b

/-- One iteration of the `for name, val in properties.items()` loop of
`apply_properties`, acting on the accumulated `(block, changes)`. -/
def applyPropStep (current_value : List Char)
    (update_empty_only hidden exclude_equal : Bool)
    (acc : List Char × Nat) (p : List Char × Option (List Char)) :
    List Char × Nat :=
  match p.2 with
  | none => acc
  | some v =>
    if stripWS p.1 = "Footprint".data ∨ stripWS p.1 = "Value".data then acc
    else if exclude_equal = true ∧ stripWS v = current_value then acc
    else if prop_exists p.1 acc.1 = true then
      if update_empty_only = true then
        if stripWS ((get_prop_value acc.1 p.1).getD []) = [] then
          let r := set_prop_value acc.1 p.1 v
          (r.1, acc.2 + (if r.2 then 1 else 0))
        else acc
      else acc
    else
      let t := extract_template acc.1
      let eff := if hidden then ensure_hide_effects t.2.2 else t.2.2
      let extra := (if t.2.1 ≠ [] then ' ' :: t.2.1 else []) ++
        (if eff ≠ [] then ' ' :: eff else [])
      let nl := newPropLine t.1 p.1 (sanitizeVal v) extra
      match rfindChar ')' acc.1 with
      | some i => (acc.1.take i ++ nl ++ acc.1.drop i, acc.2 + 1)
      | none => acc

/-- The category-keyword table choosing the primary attribute
(lines 249-259 of `symbol_editor.py`); `lcat` is the lowercased
category. -/
def selectPrimary (lcat : List Char)
    (props : List (List Char × Option (List Char))) : Option (List Char) :=
  if containsSub "resistor".data lcat = true then
    getAssoc props ("Resistance".data)
  else if containsSub "capacitor".data lcat = true then
    getAssoc props ("Capacitance".data)
  else if containsSub "inductor".data lcat = true ∨
      containsSub "coil".data lcat = true then
    getAssoc props ("Inductance".data)
  else if containsSub "ferrite".data lcat = true ∨
      containsSub "bead".data lcat = true then
    pyOr (getAssoc props ("Impedance @ Frequency".data))
      (getAssoc props ("Impedance".data))
  else none

/-- The `if primary:` Value update of `apply_properties`
(lines 261-267). -/
def applyValueUpdate (props : List (List Char × Option (List Char)))
    (lcat : List Char) (block : List Char) : List Char × Nat :=
  match selectPrimary lcat props with
  | none => (block, 0)
  | some p =>
    if p = [] then (block, 0)
    else
      let current := (get_prop_value block ("Value".data)).getD []
      let mfr := stripWS ((pyOr (getAssoc props ("Manufacturer Part".data))
        (getAssoc props ("MFR.Part".data))).getD [])
      if stripWS current = [] ∨ (mfr ≠ [] ∧ stripWS current = mfr) then
        let r := set_prop_value block ("Value".data) p
        (r.1, if r.2 then 1 else 0)
      else (block, 0)

/-- Match of `^\(pin(?:\s+|\s*\n\s*)\S+(?:\s+|\s*\n\s*)\S+` (at a line
start); since `\s` contains `\n` the separators are just `\s+`.  Returns
the rest after the matched header. -/
def matchPinHeader (s : List Char) : Option (List Char) :=
  if beginsWith "(pin".data s then
    let r1 := s.drop ("(pin".data).length
    if (r1.takeWhile isWS).isEmpty then none
    else
      let r2 := r1.dropWhile isWS
      if (r2.takeWhile (fun c => !(isWS c))).isEmpty then none
      else
        let r3 := r2.dropWhile (fun c => !(isWS c))
        if (r3.takeWhile isWS).isEmpty then none
        else
          let r4 := r3.dropWhile isWS
          if (r4.takeWhile (fun c => !(isWS c))).isEmpty then none
          else some (r4.dropWhile (fun c => !(isWS c)))
  else none

/-- Embedding of `header_re.subn("(pin input line", pin_text, count=1)` with MULTILINE
`^`: try each line start, replace the first header found. -/
def subPinHeaderAux : Bool → List Char → List Char × Nat
  | _, [] => ([], 0)
  | ls, c :: cs =>
    if ls then
      match matchPinHeader (c :: cs) with
      | some rest => ("(pin input line".data ++ rest, 1)
      | none =>
        let t := subPinHeaderAux (c = '\n') cs
        (c :: t.1, t.2)
    else
      let t := subPinHeaderAux (c = '\n') cs
      (c :: t.1, t.2)

def subPinHeaderOnce (s : List Char) : List Char × Nat :=
  subPinHeaderAux true s

/-- Match of `(\(name(?:\s+|\s*\n\s*)")(.*?)(")`: `.` does not cross a
newline, and the lazy group ends at the first quote. -/
def matchNameTok (s : List Char) : Option (List Char × List Char × List Char) :=
  if beginsWith "(name".data s then
    let r1 := s.drop ("(name".data).length
    let ws := r1.takeWhile isWS
    if ws.isEmpty then none
    else
      match r1.dropWhile isWS with
      | '\"' :: r2 =>
        let val := r2.takeWhile (fun c => c != '\"' && c != '\n')
        match r2.dropWhile (fun c => c != '\"' && c != '\n') with
        | '\"' :: rest => some (ws, val, rest)
        | _ => none
      | _ => none
  else none

/-- Embedding of `name_re.subn(r'\1~\3', ..., count=1)`: replace the first pin-name
value by `~`. -/
def subNameOnceAux : List Char → List Char × Nat
  | [] => ([], 0)
  | c :: cs =>
    match matchNameTok (c :: cs) with
    | some (ws, _, rest) =>
      ("(name".data ++ ws ++ ('\"' :: '~' :: '\"' :: rest), 1)
    | none =>
      let t := subNameOnceAux cs
      (c :: t.1, t.2)

/-- The per-pin rebuild loop of
`_normalize_two_or_fewer_pins_to_input_with_tilde`. -/
def normalizePinsGo (block : List Char) : List (Nat × Nat) → Nat → List Char × Nat
  | [], prev => (block.drop prev, 0)
  | (s, e) :: rest, prev =>
    let pre := (block.drop prev).take (s - prev)
    let pin_text := (block.drop s).take (e - s)
    let u2 := subPinHeaderOnce pin_text
    let u3 := subNameOnceAux u2.1
    let edits := if u3.1 ≠ pin_text then u2.2 + u3.2 else 0
    let t := normalizePinsGo block rest e
    (pre ++ u3.1 ++ t.1, edits + t.2)

/-- Embedding of `SymbolEditor._normalize_two_or_fewer_pins_to_input_with_tilde`. -/
def normalizePins (block : List Char) : List Char × Nat :=
  let pins := findPinBlocks block
  if pins = [] ∨ pins.length > 2 then (block, 0)
  else normalizePinsGo block pins 0

/-- Embedding of `SymbolEditor.apply_properties` acting on the loaded block: the new
block text and the number of changes. -/
def applyPropertiesBlock (props : List (List Char × Option (List Char)))
    (category : Option (List Char))
    (update_empty_only hidden exclude_equal : Bool)
    (block0 : List Char) : List Char × Nat :=
  let current_value := stripWS ((get_prop_value block0 ("Value".data)).getD [])
  let r1 := props.foldl
    (applyPropStep current_value update_empty_only hidden exclude_equal)
    (block0, 0)
  match category with
  | none => r1
  | some cat =>
    if cat = [] then r1
    else
      let lcat := lowerStr cat
      let r2 := applyValueUpdate props lcat r1.1
      let r3 :=
        if ["resistor", "capacitor", "inductor", "coil", "ferrite", "bead"].any
            (fun k => containsSub k.data lcat) then
          normalizePins r2.1
        else (r2.1, 0)
      (r3.1, r1.2 + r2.2 + r3.2)

/-! ### Editor state, `save` and the frame property -/

/-- Match of `\(id\s+\d+\)` at the start of `s`; returns the rest. -/
def matchIdTok (s : List Char) : Option (List Char) :=
  if beginsWith "(id".data s then
    let r1 := s.drop ("(id".data).length
    if (r1.takeWhile isWS).isEmpty then none
    else
      let r2 := r1.dropWhile isWS
      if (r2.takeWhile Char.isDigit).isEmpty then none
      else
        match r2.dropWhile Char.isDigit with
        | ')' :: rest => some rest
        | _ => none
  else none

/-- Embedding of `re.sub(r"\(id\s+\d+\)", "", new_text)`: delete every id token. -/
def stripIdTokens : Nat → List Char → List Char
  | 0, s => s
  | fuel + 1, s =>
    match matchIdTok s with
    | some rest => stripIdTokens fuel rest
    | none =>
      match s with
      | [] => []
      | c :: cs => c :: stripIdTokens fuel cs

def stripIds (s : List Char) : List Char :=
  stripIdTokens (s.length + 1) s

/-- Embedding of `SymbolEditor.save`: splice the edited block back over its span, then
optionally strip `(id ..)` tokens from the whole text. -/
def saveText (text : List Char) (span : Nat × Nat) (block : List Char)
    (strip : Bool) : List Char :=
  let nt := text.take span.1 ++ block ++ text.drop span.2
  if strip then stripIds nt else nt

/-- The in-memory state of a `SymbolEditor` after `_ensure_loaded_block`:
the full file text, the located span, and the block being edited. -/
structure EditorSt where
  text : List Char
  span : Nat × Nat
  block : List Char
deriving DecidableEq

/-- The block-editing public operations of the editor. -/
inductive EditorOp where
  | applyProps (props : List (List Char × Option (List Char)))
      (category : Option (List Char))
      (update_empty_only hidden exclude_equal : Bool)
  | ensureFpPre (pfx : List Char)

/-- Both operations read and write only `self._block`. -/
def runOp (st : EditorSt) : EditorOp → EditorSt
  | .applyProps props cat ue hid ex =>
    { st with block := (applyPropertiesBlock props cat ue hid ex st.block).1 }
  | .ensureFpPre pfx =>
    { st with block := (ensure_footprint_prefix_block pfx st.block).1 }

def runOps (st : EditorSt) (ops : List EditorOp) : EditorSt :=
  ops.foldl runOp st

/-- Loading a file text and locating the target block. -/
def editorInit (text id : List Char) : Option EditorSt :=
  match ensureLoadedBlock text id with
  | some (s, e) => some ⟨text, (s, e), (text.drop s).take (e - s)⟩
  | none => none

def saveEditor (st : EditorSt) (strip : Bool) : List Char :=
  saveText st.text st.span st.block strip

theorem dropWhile_length_le (p : Char → Bool) (l : List Char) :
    (l.dropWhile p).length ≤ l.length := by
  induction l with
  | nil => simp
  | cons c cs ih =>
    by_cases h : p c
    · rw [List.dropWhile_cons_of_pos h]
      simp
      omega
    · rw [List.dropWhile_cons_of_neg h]

theorem matchIdTok_rest_lt {s rest : List Char} (h : matchIdTok s = some rest) :
    rest.length < s.length := by
  rw [matchIdTok] at h
  simp only [] at h
  split at h
  · rename_i hb
    have hblen : 3 ≤ s.length := by
      have := beginsWith_length hb
      simpa using this
    split at h
    · simp at h
    · split at h
      · simp at h
      · split at h
        · rename_i rest' heq
          obtain rfl : rest' = rest := by simpa using h
          have h1 := congrArg List.length heq
          have h2 := dropWhile_length_le Char.isDigit
            ((s.drop ("(id".data).length).dropWhile isWS)
          have h3 := dropWhile_length_le isWS (s.drop ("(id".data).length)
          simp only [List.length_cons, List.length_drop] at h1 h2 h3 ⊢
          have h5 : ("(id".data).length = 3 := rfl
          omega
        · simp at h
  · simp at h

theorem stripIdTokens_fuel_irrel :
    ∀ fuel fuel' (s : List Char), s.length < fuel → s.length < fuel' →
      stripIdTokens fuel s = stripIdTokens fuel' s := by
  intro fuel
  induction fuel with
  | zero => intro fuel' s h _; omega
  | succ fuel ih =>
    intro fuel' s h h'
    cases fuel' with
    | zero => omega
    | succ fuel' =>
      cases hm : matchIdTok s with
      | some rest =>
        have hlt := matchIdTok_rest_lt hm
        simp only [stripIdTokens, hm]
        exact ih fuel' rest (by omega) (by omega)
      | none =>
        cases s with
        | nil => simp [stripIdTokens, hm]
        | cons c cs =>
          simp only [stripIdTokens, hm, List.length_cons] at h h' ⊢
          rw [ih fuel' cs (by omega) (by omega)]

theorem subnFootprint_fuel_irrel :
    ∀ fuel fuel' (pfx s : List Char), s.length < fuel → s.length < fuel' →
      subnFootprint fuel pfx s = subnFootprint fuel' pfx s := by
  intro fuel
  induction fuel with
  | zero => intro fuel' pfx s h _; omega
  | succ fuel ih =>
    intro fuel' pfx s h h'
    cases fuel' with
    | zero => omega
    | succ fuel' =>
      cases hf : findFp s with
      | none => simp [subnFootprint, hf]
      | some pm =>
        obtain ⟨pre, m⟩ := pm
        have hlt := findFp_rest_lt hf
        simp only [subnFootprint, hf]
        rw [ih fuel' pfx m.rest (by omega) (by omega)]

theorem matchModel_rest_lt {s : List Char} {m : ModelMatch}
    (h : matchModel s = some m) : m.rest.length < s.length := by
  rw [matchModel] at h
  simp only [] at h
  split at h
  · rename_i hb
    have hblen : 6 ≤ s.length := by
      have := beginsWith_length hb
      simpa using this
    split at h
    · simp at h
    · split at h
      · rename_i r2 heq
        split at h
        · simp at h
        · split at h
          · rename_i rest heq2
            obtain rfl : (⟨(s.drop ("(model".data).length).takeWhile isWS,
                r2.takeWhile (fun c => c != '\"'), rest⟩ : ModelMatch) = m := by
              simpa using h
            have h1 := congrArg List.length heq
            have h2 := congrArg List.length heq2
            have h3 := dropWhile_length_le isWS (s.drop ("(model".data).length)
            have h4 := dropWhile_length_le (fun c => c != '\"') r2
            simp only [List.length_cons, List.length_drop] at h1 h2 h3 h4 ⊢
            have h5 : ("(model".data).length = 6 := rfl
            omega
          · simp at h
      · simp at h
  · simp at h

theorem relativizeSubn_fuel_irrel
    (resolve : List Char → Option (List (List Char)))
    (projSegs : List (List Char)) :
    ∀ fuel fuel' (s : List Char), s.length < fuel → s.length < fuel' →
      relativizeSubn resolve projSegs fuel s =
        relativizeSubn resolve projSegs fuel' s := by
  intro fuel
  induction fuel with
  | zero => intro fuel' s h _; omega
  | succ fuel ih =>
    intro fuel' s h h'
    cases fuel' with
    | zero => omega
    | succ fuel' =>
      cases hf : findModel s with
      | none => simp [relativizeSubn, hf]
      | some pm =>
        obtain ⟨pre, m⟩ := pm
        have hlt : m.rest.length < s.length := by
          revert hf
          clear h h'
          induction s generalizing pre with
          | nil => intro hf; simp [findModel] at hf
          | cons c cs ihs =>
            intro hf
            rw [findModel] at hf
            cases hmm : matchModel (c :: cs) with
            | some m0 =>
              rw [hmm] at hf
              simp only [Option.some.injEq, Prod.mk.injEq] at hf
              obtain ⟨rfl, rfl⟩ := hf
              exact matchModel_rest_lt hmm
            | none =>
              rw [hmm] at hf
              simp only [Option.map_eq_some'] at hf
              obtain ⟨⟨pre', m'⟩, hfind, heq⟩ := hf
              simp only [Prod.mk.injEq] at heq
              obtain ⟨rfl, rfl⟩ := heq
              have := ihs pre' hfind
              simp only [List.length_cons]
              omega
        simp only [relativizeSubn, hf]
        rw [ih fuel' m.rest (by omega) (by omega)]

theorem runOps_text_span (ops : List EditorOp) (st : EditorSt) :
    (runOps st ops).text = st.text ∧ (runOps st ops).span = st.span := by
  induction ops generalizing st with
  | nil => exact ⟨rfl, rfl⟩
  | cons op ops ih =>
    have hstep : (runOp st op).text = st.text ∧ (runOp st op).span = st.span := by
      cases op <;> exact ⟨rfl, rfl⟩
    have := ih (runOp st op)
    rw [runOps, List.foldl_cons]
    exact ⟨by rw [← runOps, this.1, hstep.1], by rw [← runOps, this.2, hstep.2]⟩

theorem take_append_len {A R : List Char} {n : Nat} (h : A.length = n) :
    (A ++ R).take n = A := by
  subst h
  exact List.take_left A R

theorem drop_append2_len {A B C : List Char} {n m : Nat}
    (hA : A.length = n) (hB : B.length = m) :
    (A ++ B ++ C).drop (n + m) = C := by
  subst hA
  subst hB
  have h : A.length + B.length = (A ++ B).length := by simp
  rw [h, List.drop_left]

theorem ensureLoadedBlock_mem {text id : List Char} {se : Nat × Nat}
    (h : ensureLoadedBlock text id = some se) : se ∈ findBlocks text := by
  rw [ensureLoadedBlock] at h
  split at h
  · rename_i se' hf
    obtain rfl : se' = se := by simpa using h
    exact List.mem_of_find?_eq_some hf
  · split at h
    · rename_i se' heq
      obtain rfl : se' = se := by simpa using h
      rw [heq]
      simp
    · simp at h

/-- Claim C1 (amended): after `_ensure_loaded_block`, any sequence of
`apply_properties` / `ensure_footprint_prefix` calls touches only the
block, and `save(strip_ids=False)` writes exactly
`prefix ++ edited block ++ suffix`: every character outside the located
span is unchanged.  With the default `strip_ids=True` the whole saved text
additionally has `(id <n>)` tokens removed, which can change text outside
the span (see the counterexample). -/
theorem C1_save_frame (text id : List Char) (ops : List EditorOp)
    (st0 : EditorSt) (h : editorInit text id = some st0) :
    saveEditor (runOps st0 ops) false =
      text.take st0.span.1 ++ (runOps st0 ops).block ++ text.drop st0.span.2 ∧
    (saveEditor (runOps st0 ops) false).take st0.span.1 =
      text.take st0.span.1 ∧
    (saveEditor (runOps st0 ops) false).drop
      (st0.span.1 + (runOps st0 ops).block.length) = text.drop st0.span.2 ∧
    saveEditor (runOps st0 ops) true =
      stripIds (text.take st0.span.1 ++ (runOps st0 ops).block ++
        text.drop st0.span.2) := by
  rw [editorInit] at h
  split at h
  case h_2 => simp at h
  case h_1 s e hse =>
  obtain rfl : (⟨text, (s, e), (text.drop s).take (e - s)⟩ : EditorSt) = st0 := by
    simpa using h
  obtain ⟨ht, hs⟩ := runOps_text_span ops ⟨text, (s, e), (text.drop s).take (e - s)⟩
  have hmem := ensureLoadedBlock_mem hse
  have hspec := (findBlocksAux_spec (text.length + 1) text 0 _ hmem).2
  have hslen : s ≤ text.length := by
    simp only [] at hspec
    omega
  have hmain : saveEditor (runOps ⟨text, (s, e), (text.drop s).take (e - s)⟩ ops) false =
      text.take s ++ (runOps ⟨text, (s, e), (text.drop s).take (e - s)⟩ ops).block ++
        text.drop e := by
    rw [saveEditor, saveText]
    simp [ht, hs]
  have hlen : (text.take s).length = s := by
    simp
    omega
  refine ⟨hmain, ?_, ?_, ?_⟩
  · rw [hmain, List.append_assoc]
    exact take_append_len hlen
  · rw [hmain]
    exact drop_append2_len hlen rfl
  · rw [saveEditor, saveText]
    simp [ht, hs]

/-- Witness for C1 at a concrete file: with `strip_ids=False` the prefix
before the block and the suffix after it are written back unchanged. -/
theorem C1_save_frame_witness :
    saveEditor (runOps
        ⟨"(id 1)(symbol \"X\" (property \"Footprint\" \"F\"))".data, (6, 45),
          "(symbol \"X\" (property \"Footprint\" \"F\"))".data⟩
        [EditorOp.ensureFpPre ("LCSC_".data)]) false =
      (("(id 1)(symbol \"X\" (property \"Footprint\" \"F\"))".data).take 6) ++
        (runOps
          ⟨"(id 1)(symbol \"X\" (property \"Footprint\" \"F\"))".data, (6, 45),
            "(symbol \"X\" (property \"Footprint\" \"F\"))".data⟩
          [EditorOp.ensureFpPre ("LCSC_".data)]).block ++
        (("(id 1)(symbol \"X\" (property \"Footprint\" \"F\"))".data).drop 45) := by
  have h := (C1_save_frame
    ("(id 1)(symbol \"X\" (property \"Footprint\" \"F\"))".data) ("X".data)
    [EditorOp.ensureFpPre ("LCSC_".data)]
    ⟨"(id 1)(symbol \"X\" (property \"Footprint\" \"F\"))".data, (6, 45),
      "(symbol \"X\" (property \"Footprint\" \"F\"))".data⟩
    (by decide)).1
  simpa using h

/-- Counterexample to C1 as stated: with the default `strip_ids=True`,
`save` also deletes the `(id 1)` token that lies before the located block,
so the text outside the span changes. -/
theorem C1_save_strip_changes_outside :
    ((editorInit ("(id 1)(symbol \"X\" (property \"Footprint\" \"F\"))".data)
        ("X".data)).map
      (fun st0 => saveEditor
        (runOps st0 [EditorOp.ensureFpPre ("LCSC_".data)]) true)) =
      some ("(symbol \"X\" (property \"Footprint\" \"LCSC_F\"))".data) ∧
    ¬ (("(symbol \"X\" (property \"Footprint\" \"LCSC_F\"))".data).take 6 =
       ("(id 1)(symbol \"X\" (property \"Footprint\" \"F\"))".data).take 6) := by
  constructor
  · decide
  · decide

/-- Claim C7: with a category given, the attribute chosen as the symbol's
Value is decided by keyword membership in the lowercased category string
(resistor → Resistance, capacitor → Capacitance, inductor/coil →
Inductance, ferrite/bead → "Impedance @ Frequency" falling back to
Impedance, in the code's precedence order), and the Value property is
overwritten (via `_set_prop_value`) only when the current Value is empty
or equals the manufacturer-part value (key "Manufacturer Part", falling
back to "MFR.Part"). -/
theorem C7_value_from_category (props : List (List Char × Option (List Char)))
    (cat : List Char) :
    (containsSub ("resistor".data) (lowerStr cat) = true →
      selectPrimary (lowerStr cat) props = getAssoc props ("Resistance".data)) ∧
    (containsSub ("resistor".data) (lowerStr cat) = false →
      containsSub ("capacitor".data) (lowerStr cat) = true →
      selectPrimary (lowerStr cat) props = getAssoc props ("Capacitance".data)) ∧
    (containsSub ("resistor".data) (lowerStr cat) = false →
      containsSub ("capacitor".data) (lowerStr cat) = false →
      (containsSub ("inductor".data) (lowerStr cat) = true ∨
        containsSub ("coil".data) (lowerStr cat) = true) →
      selectPrimary (lowerStr cat) props = getAssoc props ("Inductance".data)) ∧
    (containsSub ("resistor".data) (lowerStr cat) = false →
      containsSub ("capacitor".data) (lowerStr cat) = false →
      containsSub ("inductor".data) (lowerStr cat) = false →
      containsSub ("coil".data) (lowerStr cat) = false →
      (containsSub ("ferrite".data) (lowerStr cat) = true ∨
        containsSub ("bead".data) (lowerStr cat) = true) →
      selectPrimary (lowerStr cat) props =
        pyOr (getAssoc props ("Impedance @ Frequency".data))
          (getAssoc props ("Impedance".data))) ∧
    (∀ block, (applyValueUpdate props (lowerStr cat) block).1 ≠ block →
      ∃ p, selectPrimary (lowerStr cat) props = some p ∧ p ≠ [] ∧
        (stripWS ((get_prop_value block ("Value".data)).getD []) = [] ∨
          (stripWS ((pyOr (getAssoc props ("Manufacturer Part".data))
              (getAssoc props ("MFR.Part".data))).getD []) ≠ [] ∧
            stripWS ((get_prop_value block ("Value".data)).getD []) =
              stripWS ((pyOr (getAssoc props ("Manufacturer Part".data))
                (getAssoc props ("MFR.Part".data))).getD []))) ∧
        (applyValueUpdate props (lowerStr cat) block).1 =
          (set_prop_value block ("Value".data) p).1) := by
  refine ⟨?_, ?_, ?_, ?_, ?_⟩
  · intro h1
    rw [selectPrimary, if_pos h1]
  · intro h1 h2
    rw [selectPrimary, if_neg (by simp [h1]), if_pos h2]
  · intro h1 h2 h3
    rw [selectPrimary, if_neg (by simp [h1]), if_neg (by simp [h2]), if_pos h3]
  · intro h1 h2 h3 h4 h5
    rw [selectPrimary, if_neg (by simp [h1]), if_neg (by simp [h2]),
      if_neg (by simp [h3, h4]), if_pos h5]
  · intro block hne
    cases hsel : selectPrimary (lowerStr cat) props with
    | none => simp [applyValueUpdate, hsel] at hne
    | some p =>
      by_cases hp : p = []
      · simp [applyValueUpdate, hsel, hp] at hne
      · by_cases hg : stripWS ((get_prop_value block ("Value".data)).getD []) = [] ∨
            (stripWS ((pyOr (getAssoc props ("Manufacturer Part".data))
              (getAssoc props ("MFR.Part".data))).getD []) ≠ [] ∧
              stripWS ((get_prop_value block ("Value".data)).getD []) =
                stripWS ((pyOr (getAssoc props ("Manufacturer Part".data))
                  (getAssoc props ("MFR.Part".data))).getD []))
        · refine ⟨p, rfl, hp, hg, ?_⟩
          simp only [applyValueUpdate, hsel]
          rw [if_neg hp, if_pos hg]
        · simp only [applyValueUpdate, hsel] at hne
          rw [if_neg hp, if_neg hg] at hne
          exact absurd rfl hne

/-- Witness for C7 at concrete inputs: a resistor category selects the
Resistance attribute, and an empty current Value gets overwritten through
`_set_prop_value`. -/
theorem C7_value_from_category_witness :
    selectPrimary (lowerStr ("Chip Resistor - Surface Mount".data))
        [("Resistance".data, some ("10k".data))] =
      getAssoc [("Resistance".data, some ("10k".data))] ("Resistance".data) ∧
    (∃ p, selectPrimary (lowerStr ("Chip Resistor - Surface Mount".data))
          [("Resistance".data, some ("10k".data))] = some p ∧ p ≠ [] ∧
        (stripWS ((get_prop_value ("(property \"Value\" \"\")".data)
            ("Value".data)).getD []) = [] ∨
          (stripWS ((pyOr (getAssoc [("Resistance".data, some ("10k".data))]
              ("Manufacturer Part".data))
              (getAssoc [("Resistance".data, some ("10k".data))]
                ("MFR.Part".data))).getD []) ≠ [] ∧
            stripWS ((get_prop_value ("(property \"Value\" \"\")".data)
              ("Value".data)).getD []) =
              stripWS ((pyOr (getAssoc [("Resistance".data, some ("10k".data))]
                ("Manufacturer Part".data))
                (getAssoc [("Resistance".data, some ("10k".data))]
                  ("MFR.Part".data))).getD []))) ∧
        (applyValueUpdate [("Resistance".data, some ("10k".data))]
          (lowerStr ("Chip Resistor - Surface Mount".data))
          ("(property \"Value\" \"\")".data)).1 =
          (set_prop_value ("(property \"Value\" \"\")".data) ("Value".data) p).1) := by
  constructor
  · exact (C7_value_from_category [("Resistance".data, some ("10k".data))]
      ("Chip Resistor - Surface Mount".data)).1 (by decide)
  · exact (C7_value_from_category [("Resistance".data, some ("10k".data))]
      ("Chip Resistor - Surface Mount".data)).2.2.2.2
      ("(property \"Value\" \"\")".data) (by decide)

/-- Claim C10: every property value the editor writes is sanitised: `"` is
replaced by `'` before insertion, the block text updated by
`_set_prop_value` carries the sanitised value between its quotes, and the
inserted `(property ...)` line of `apply_properties` contributes exactly
the four delimiting quotes regardless of the value. -/
theorem C10_sanitized_values (block name v indent extra : List Char) :
    '\"' ∉ sanitizeVal v ∧
    (∀ b', set_prop_value block name v = (b', true) →
      ∃ pre m, findPropFull name block = some (pre, m) ∧
        b' = pre ++ propLit ++ m.ws1 ++ quoted name ++ m.ws2 ++
          ('\"' :: sanitizeVal v) ++ ('\"' :: m.rest)) ∧
    (newPropLine indent name (sanitizeVal v) extra).count '\"' =
      4 + indent.count '\"' + name.count '\"' + extra.count '\"' := by
  refine ⟨sanitizeVal_no_quote v, ?_, ?_⟩
  · intro b' h
    rw [set_prop_value] at h
    split at h
    · simp at h
    · rename_i pre m hf
      split at h
      · simp at h
      · simp only [Prod.mk.injEq] at h
        exact ⟨pre, m, hf, h.1.symm⟩
  · have h0 : (sanitizeVal v).count '\"' = 0 :=
      List.count_eq_zero.mpr (sanitizeVal_no_quote v)
    have h1 : ("(property \"".data).count '\"' = 1 := by decide
    have h2 : ("\" \"".data).count '\"' = 2 := by decide
    have h3 : (['\"'] : List Char).count '\"' = 1 := by decide
    have h4 : (([')', '\n'] : List Char)).count '\"' = 0 := by decide
    simp [newPropLine, List.count_append, h0, h1, h2, h3, h4]
    omega

/-- Witness for C10: updating the `V` property with the value `a"b` stores
`a'b`. -/
theorem C10_sanitized_values_witness :
    '\"' ∉ sanitizeVal ("a\"b".data) ∧
    (∃ pre m, findPropFull ("V".data) ("(property \"V\" \"old\")".data) =
        some (pre, m) ∧
      "(property \"V\" \"a'b\")".data = pre ++ propLit ++ m.ws1 ++
        quoted ("V".data) ++ m.ws2 ++
        ('\"' :: sanitizeVal ("a\"b".data)) ++ ('\"' :: m.rest)) := by
  constructor
  · exact (C10_sanitized_values ("(property \"V\" \"old\")".data) ("V".data)
      ("a\"b".data) [] []).1
  · exact (C10_sanitized_values ("(property \"V\" \"old\")".data) ("V".data)
      ("a\"b".data) [] []).2.1 ("(property \"V\" \"a'b\")".data) (by decide)

end KicadImport
